import Mathlib

/-!
Verification of the scenario perturbation engine in `core/action.py`.

Numeric columns of the pandas tables are modelled as rationals (`ℚ`); a
table is an association list from the equipment identifier to a row
structure.  `np.clip(x, lo, hi)` is `min (max x lo) hi`.  Randomness
(`np.random.normal`, `random.sample`) is modelled by passing the drawn
samples / positions explicitly, so that every theorem quantifies over all
possible draws.
-/

namespace PowerAI

/-- `EPS = 1e-8` from `core/action.py`. -/
def EPS : ℚ := 1 / 100000000

/-- `np.clip(x, lo, hi)`: clip below first, then above (numpy semantics). -/
def rclip (x lo hi : ℚ) : ℚ := min (max x lo) hi

/-- Association-list lookup by key (the pandas `.loc[key]` row access on a
table whose index is the identifier column). -/
def alook {κ α : Type} [DecidableEq κ] : List (κ × α) → κ → Option α
  | [], _ => none
  | (i, a) :: t, j => if i = j then some a else alook t j

/-! ## Generator table and `distribute_generators_p` -/

/-- A row of the generator table (columns used by `core/action.py`). -/
structure Gen where
  mark : ℤ
  p0 : ℚ
  pmin : ℚ
  pmax : ℚ
  v0 : ℚ
deriving DecidableEq

abbrev GenTable := List (ℕ × Gen)

/-- The return value of `distribute_generators_p`: the documented case is a
scalar float, but line 75 (`return delta + margin`) returns a pandas Series
keyed by the saturated generators. -/
inductive DgpRet where
  | scalar (r : ℚ)
  | series (s : List (ℕ × ℚ))
deriving DecidableEq

/-- Participant selection of `distribute_generators_p` (lines 58-61):
in-service rows (`mark == 1`), then restricted to `indices` when that
argument is truthy (a non-empty list; `if indices:` is false for `[]` and
`None`).  `sub.loc[indices]` keeps the listed labels only when present
(`[i for i in indices if i in sub.index]`). -/
def subSelect (gens : GenTable) (indices : Option (List ℕ)) : GenTable :=
  let sub0 := gens.filter fun p => p.2.mark = 1
  match indices with
  | none => sub0
  | some is => if is.isEmpty then sub0 else
      is.filterMap fun i => (alook sub0 i).map fun g => (i, g)

/-- New `p0` of the row with identifier `i`, given the label-aligned
right-hand side `upd`. -/
def updFn (upd : List (ℕ × ℚ)) (i : ℕ) (g : Gen) : Gen :=
  match alook upd i with
  | some v => { g with p0 := v }
  | none => g

/-- `generators.loc[sub.index, 'p0'] = ...`: label-aligned assignment of the
`p0` column for the listed identifiers. -/
def updP0 (tbl : GenTable) (upd : List (ℕ × ℚ)) : GenTable :=
  tbl.map fun p => (p.1, updFn upd p.1 p.2)

/-- Tail of `distribute_generators_p` (lines 76-84): optional random scaling
of the headroom shares (`sigma = some mults` models a truthy `sigma` with the
drawn `N(1, sigma)` multipliers), proportional allocation, optional clip of
the whole `p0` column. -/
def dgpApply (gens : GenTable) (sub2 : GenTable) (headrooms : List (ℕ × ℚ))
    (delta : ℚ) (sigma : Option (List ℚ)) (clip : Bool) : DgpRet × GenTable :=
  let headrooms2 := match sigma with
    | none => headrooms
    | some mults => (headrooms.zip mults).map fun q => (q.1.1, q.1.2 * q.2)
  let msum2 := (headrooms2.map Prod.snd).sum
  let upd := (sub2.zip headrooms2).map fun q => (q.1.1, q.1.2.p0 + q.2.2 / msum2 * delta)
  let gens1 := updP0 gens upd
  let gens2 := if clip then
      gens1.map fun p => (p.1, { p.2 with p0 := rclip p.2.p0 p.2.pmin p.2.pmax })
    else gens1
  (.scalar 0, gens2)

/-- `distribute_generators_p` (lines 46-84 of `core/action.py`). -/
def distribute_generators_p (gens : GenTable) (delta : ℚ) (indices : Option (List ℕ))
    (sigma : Option (List ℚ)) (clip : Bool) : DgpRet × GenTable :=
  let sub := subSelect gens indices
  if 0 < delta then
    let sub2 := sub.filter fun p => p.2.p0 < p.2.pmax
    let headrooms := sub2.map fun p => (p.1, p.2.pmax - p.2.p0)
    let msum := (headrooms.map Prod.snd).sum
    if msum ≤ delta then
      (.scalar (delta - msum), updP0 gens (sub2.map fun p => (p.1, p.2.pmax)))
    else
      dgpApply gens sub2 headrooms delta sigma clip
  else
    let sub2 := sub.filter fun p => p.2.pmin < p.2.p0
    let headrooms := sub2.map fun p => (p.1, p.2.p0 - p.2.pmin)
    let msum := (headrooms.map Prod.snd).sum
    if msum ≤ -delta then
      -- line 75: `return delta + margin` — `margin` is the Series of
      -- per-generator headrooms, not the scalar `margin_sum`.
      (.series (headrooms.map fun q => (q.1, delta + q.2)),
        updP0 gens (sub2.map fun p => (p.1, p.2.pmin)))
    else
      dgpApply gens sub2 headrooms delta sigma clip

/-- Total upward headroom of the participants. -/
def genHeadroom (gens : GenTable) (indices : Option (List ℕ)) : ℚ :=
  ((subSelect gens indices).map fun p => p.2.pmax - p.2.p0).sum

/-! ## Load table, `distribute_loads_p` and `set_gl_p0` -/

/-- A row of the load table (also used for the tables accepted by
`set_gl_p0`, which are "generator or load" tables addressed positionally). -/
structure LoadR where
  mark : ℤ
  p0 : ℚ
  q0 : ℚ
  pmin : ℚ
  pmax : ℚ
  qmin : ℚ
  qmax : ℚ
deriving DecidableEq

abbrev LoadTable := List (ℕ × LoadR)

/-- Participant selection of `distribute_loads_p` (lines 102-105):
in-service loads with strictly positive active power, then the truthy
`indices` restriction exactly as in `subSelect`. -/
def dlpSelect (loads : LoadTable) (indices : Option (List ℕ)) : LoadTable :=
  let sub0 := loads.filter fun p => p.2.mark = 1 ∧ 0 < p.2.p0
  match indices with
  | none => sub0
  | some is => if is.isEmpty then sub0 else
      is.filterMap fun i => (alook sub0 i).map fun l => (i, l)

/-- New `p0` of the load row with identifier `i`, given the label-aligned
right-hand side `upd`. -/
def updLFn (upd : List (ℕ × ℚ)) (i : ℕ) (l : LoadR) : LoadR :=
  match alook upd i with
  | some v => { l with p0 := v }
  | none => l

/-- Label-aligned assignment of the `p0` column of the load table. -/
def updLP0 (tbl : LoadTable) (upd : List (ℕ × ℚ)) : LoadTable :=
  tbl.map fun p => (p.1, updLFn upd p.1 p.2)

/-- `loads['p0'] = np.clip(loads['p0'], loads['pmin'], loads['pmax'])`. -/
def clipP (tbl : LoadTable) : LoadTable :=
  tbl.map fun p => (p.1, { p.2 with p0 := rclip p.2.p0 p.2.pmin p.2.pmax })

/-- `loads['q0'] = np.clip(loads['q0'], loads['qmin'], loads['qmax'])`. -/
def clipQ (tbl : LoadTable) : LoadTable :=
  tbl.map fun p => (p.1, { p.2 with q0 := rclip p.2.q0 p.2.qmin p.2.qmax })

/-- New `q0` of the row with identifier `i` under the label-aligned
assignment `loads.loc[sub.index,'q0'] = loads.loc[sub.index,'p0'] * factor`. -/
def qFn (factor : List (ℕ × ℚ)) (i : ℕ) (l : LoadR) : LoadR :=
  match alook factor i with
  | some f => { l with q0 := l.p0 * f }
  | none => l

/-- The `q0` re-assignment of line 117, keyed by the participant factors. -/
def setQFactor (factor : List (ℕ × ℚ)) (tbl : LoadTable) : LoadTable :=
  tbl.map fun p => (p.1, qFn factor p.1 p.2)

/-- `distribute_loads_p` (lines 87-119 of `core/action.py`).

`p_sigma = some ms` (resp. `factor_sigma = some ms`) models a truthy sigma
together with the drawn `N(1, sigma)` multipliers `ms`.

Pandas aliasing on lines 110-112: `ratio = sub['p0']` binds the column of
`sub` itself, and the in-place `ratio *= np.random.normal(...)` writes the
perturbed values back into `sub['p0']`.  Line 113 therefore adds the
allocation share to the *perturbed* values: both the weight and the base of
the assignment `loads.loc[sub.index, 'p0'] = sub['p0'] + ratio/np.sum(ratio)*delta`
are `weights` below. -/
def distribute_loads_p (loads : LoadTable) (delta : ℚ) (indices : Option (List ℕ))
    (p_sigma : Option (List ℚ)) (keep_factor : Bool) (factor_sigma : Option (List ℚ))
    (clip : Bool) : LoadTable :=
  let sub := dlpSelect loads indices
  -- line 107: `factor = sub['q0'] / sub['p0']` — computed from the original
  -- `p0`, before the in-place perturbation below.
  let factor0 : List (ℕ × ℚ) := sub.map fun p => (p.1, p.2.q0 / p.2.p0)
  let factor : List (ℕ × ℚ) := match factor_sigma with
    | none => factor0
    | some ms => (factor0.zip ms).map fun q => (q.1.1, q.1.2 * q.2)
  let weights : List (ℕ × ℚ) := match p_sigma with
    | none => sub.map fun p => (p.1, p.2.p0)
    | some ms => (sub.zip ms).map fun q => (q.1.1, q.1.2.p0 * q.2)
  let wsum := (weights.map Prod.snd).sum
  let loads1 := updLP0 loads (weights.map fun q => (q.1, q.2 + q.2 / wsum * delta))
  let loads2 := if clip then clipP loads1 else loads1
  -- line 117: `loads.loc[sub.index,'q0'] = loads.loc[sub.index,'p0'] * factor`
  -- uses the (possibly clipped) new `p0` of the main table.
  let loads3 := if keep_factor then setQFactor factor loads2 else loads2
  if keep_factor && clip then clipQ loads3 else loads3

/-- `set_gl_p0` (lines 139-154 of `core/action.py`): `value` is positional,
aligned with the table row order. -/
def set_gl_p0 (data : LoadTable) (value : List ℚ) (keep_factor clip : Bool) : LoadTable :=
  let data1 := (data.zip value).map fun q =>
    (q.1.1, { q.1.2 with
      p0 := q.2
      q0 := if keep_factor then q.2 * (q.1.2.q0 / (q.1.2.p0 + EPS)) else q.1.2.q0 })
  if clip then
    data1.map fun p => (p.1, { p.2 with
      p0 := rclip p.2.p0 p.2.pmin p.2.pmax
      q0 := rclip p.2.q0 p.2.qmin p.2.qmax })
  else data1

/-- `full_open_generators` (lines 157-168).  Pandas `.loc` assignment with a
list of labels requires every label to be present (otherwise it raises a
`KeyError` before mutating anything); `.1 = some ()` models that raise. -/
def full_open_generators (gens : GenTable) (indices : List ℕ) (v0 : Option ℚ) :
    Option Unit × GenTable :=
  if indices.all fun i => (alook gens i).isSome then
    (none, gens.map fun p => (p.1,
      if p.1 ∈ indices then
        { p.2 with mark := 1, p0 := p.2.pmax, v0 := (v0.getD p.2.v0) }
      else p.2))
  else (some (), gens)

/-! ## Generic dataset and `set_values` -/

/-- A pandas DataFrame of the dataset, keyed by the identifier index; each
row is positionally aligned with `cols`, a cell `none` being NaN. -/
structure Table where
  cols : List String
  rows : List (ℕ × List (Option ℚ))
deriving DecidableEq

/-- `dict of pd.DataFrame`, keyed by the equipment-type name. -/
abbrev Dataset := List (String × Table)

/-- The `values` argument of `set_values`: an identifier-keyed mapping or a
positional array (`pd.Series` behaves as one of the two at this layer). -/
inductive SvValues where
  | dict (m : List (ℕ × ℚ))
  | array (a : List ℚ)
deriving DecidableEq

/-- Exceptions `set_values` can raise: the explicit
`ValueError('Data incomplete! ...')` of line 32, a pandas `KeyError` from
reading a missing label (`+=` on a missing identifier), or a length
mismatch of a positional array. -/
inductive SvErr where
  | incomplete
  | keyError
  | lengthError
deriving DecidableEq

/-- Position of a name in a header list. -/
def idxOf? : List String → String → Option ℕ
  | [], _ => none
  | c' :: t, c => if c' = c then some 0 else (idxOf? t c).map (· + 1)

/-- Position of a column name in the table header. -/
def colPos (t : Table) (c : String) : Option ℕ := idxOf? t.cols c

/-- `df.loc[k, c]` read: `none` is a `KeyError`, `some cell` the cell
(itself `none` when NaN). -/
def locGet (t : Table) (k : ℕ) (c : String) : Option (Option ℚ) :=
  match colPos t c with
  | none => none
  | some j => (alook t.rows k).map fun r => r.getD j none

/-- `df.loc[k, c] = v` write: setting with enlargement — when the label `k`
is missing, pandas appends a new row whose other cells are NaN. -/
def locSet (t : Table) (k : ℕ) (c : String) (v : Option ℚ) : Table :=
  match colPos t c with
  | none => t
  | some j =>
    if (alook t.rows k).isSome then
      { t with rows := t.rows.map fun p => (p.1, if p.1 = k then p.2.set j v else p.2) }
    else
      { t with rows := t.rows ++ [(k, t.cols.map fun c' => if c' = c then v else none)] }

/-- Replace the table stored under a type name. -/
def dsSet (data : Dataset) (etype : String) (t : Table) : Dataset :=
  data.map fun p => (p.1, if p.1 = etype then t else p.2)

/-- The `for k in values` loop of `set_values` (lines 34-38), threading the
mutated dataset; a `KeyError` aborts mid-loop leaving earlier writes in
place, exactly as the in-place pandas mutation does. -/
def svDictLoop (etype c : String) (delta : Bool) :
    List (ℕ × ℚ) → Dataset → Option SvErr × Dataset
  | [], data => (none, data)
  | (k, v) :: rest, data =>
    match alook data etype with
    | none => (some .keyError, data)
    | some t =>
      if delta then
        match locGet t k c with
        | none => (some .keyError, data)
        | some cell =>
          svDictLoop etype c delta rest (dsSet data etype (locSet t k c (cell.map (· + v))))
      else
        svDictLoop etype c delta rest (dsSet data etype (locSet t k c (some v)))

/-- Whole-column assignment `data[etype][column] = values` (resp. `+=`)
with a positional array. -/
def svArray (t : Table) (c : String) (delta : Bool) (a : List ℚ) :
    Option SvErr × Table :=
  match colPos t c with
  | none => (some .keyError, t)
  | some j =>
    if t.rows.length = a.length then
      (none, { t with rows := (t.rows.zip a).map fun q =>
        (q.1.1, q.1.2.set j (if delta then (q.1.2.getD j none).map (· + q.2) else some q.2)) })
    else (some .lengthError, t)

/-- `set_values` (lines 20-43 of `core/action.py`).  The first component is
the exception raised (if any); the second the dataset state after the call,
the tables being mutated in place in the source. -/
def set_values (data : Dataset) (etype c : String) (values : SvValues) (delta : Bool) :
    Option SvErr × Dataset :=
  match alook data etype with
  | none => (some .incomplete, data)
  | some t =>
    if c ∈ t.cols then
      match values with
      | .dict m => svDictLoop etype c delta m data
      | .array a =>
        let r := svArray t c delta a
        (r.1, dsSet data etype r.2)
    else (some .incomplete, data)

/-! ## Multigraph over buses and `random_open_acline`

`core/topo.py` (the `PowerGraph` collaborator) is not under `src/`; it is
modelled from the spec below.  The spec describes it as a multigraph over
bus nodes built from all in-service branches, keyed so that parallel
branches stay distinct. -/

/-- A row of a branch table (`acline` or `transformer`). -/
structure Acline where
  mark : ℤ
  ibus : ℕ
  jbus : ℕ
deriving DecidableEq

abbrev AclTable := List (ℕ × Acline)

/-- A keyed multigraph edge `(u, v, key)`; acline keys are `Sum.inl id`,
transformer keys `Sum.inr id`, so branches of different types with the same
identifier stay distinct. -/
abbrev Edge := ℕ × ℕ × (ℕ ⊕ ℕ)

/-- The model tables `random_open_acline` touches. -/
structure Power where
  acline : AclTable
  transformer : AclTable
deriving DecidableEq

/-- Bool adjacency in the edge multiset: some edge joins `u` and `v`
(in either orientation). -/
def adjB (es : List Edge) (u v : ℕ) : Bool :=
  es.any fun e => (e.1 = u ∧ e.2.1 = v) ∨ (e.1 = v ∧ e.2.1 = u)

/-- All endpoints of the edges. -/
def vertsOf (es : List Edge) : List ℕ :=
  es.foldr (fun e acc => e.1 :: e.2.1 :: acc) []

/-- One breadth-first expansion: add every vertex adjacent to the set. -/
def grow (es : List Edge) (s : List ℕ) : List ℕ :=
  s ++ (vertsOf es).filter fun v => s.any fun u => adjB es u v

/-- Iterated expansion. -/
def growTo (es : List Edge) : ℕ → List ℕ → List ℕ
  | 0, s => s
  | k + 1, s => growTo es k (grow es s)

/-- Vertices reachable from `a`; `2*|es|+1` expansions exceed the number of
distinct vertices, so the result is the full reachable set. -/
def reachL (es : List Edge) (a : ℕ) : List ℕ :=
  growTo es (2 * es.length + 1) [a]

/-- Decidable connectivity in the multigraph. -/
def connB (es : List Edge) (a b : ℕ) : Bool := decide (b ∈ reachL es a)

/-- `G.remove_edge(u, v, key)`: drop the edge between `u` and `v` carrying
the given key (matching either orientation). -/
def removeEdge (es : List Edge) (e : Edge) : List Edge :=
  es.filter fun f =>
    ¬ (f.2.2 = e.2.2 ∧ ((f.1 = e.1 ∧ f.2.1 = e.2.1) ∨ (f.1 = e.2.1 ∧ f.2.1 = e.1)))

/-- Modelled from the spec: the `PowerGraph(power, graph_type='multi',
node_type='bus', on_only=True)` constructor of `core/topo.py` (not under
`src/`) — "build a multigraph over bus nodes from all in-service branches
first". -/
def PowerGraph.build (p : Power) : List Edge :=
  ((p.acline.filter fun q => q.2.mark = 1).map fun q => (q.2.ibus, q.2.jbus, Sum.inl q.1))
    ++ ((p.transformer.filter fun q => q.2.mark = 1).map fun q =>
        (q.2.ibus, q.2.jbus, Sum.inr q.1))

/-- Modelled from the spec: `PowerGraph.is_connected(a, b, excluded)` of
`core/topo.py` (not under `src/`).  Section 4.6 of the spec fixes the
behaviour of the call site `graph.is_connected(edge[0], edge[1], [edge])`:
"test whether removing that specific edge ... disconnects its two endpoints
considering all *other* currently-open edges; if it would disconnect,
discard this draw ... otherwise remove the edge from the in-memory graph".
In `random_open_acline` the draw is discarded exactly when this call
returns true, so the call returns whether excluding the listed edges
disconnects `a` from `b` in the current graph. -/
def PowerGraph.is_connected (g : List Edge) (a b : ℕ) (excluded : List Edge) : Bool :=
  ! connB (excluded.foldl removeEdge g) a b

/-- `aclines.loc[idx, 'mark'] = 0`. -/
def setMark0 (tbl : AclTable) (idx : ℕ) : AclTable :=
  tbl.map fun p => (p.1, if p.1 = idx then { p.2 with mark := 0 } else p.2)

/-- Outcome of `random_open_acline`: the returned identifier list, the
`ValueError('Not plenty of aclines to be off.')` raise, or exhaustion of
the recursion fuel (proved unreachable for the fuel used at the top level). -/
inductive RoaOut where
  | ok (ret : List ℕ)
  | errInsufficient
  | errFuel
deriving DecidableEq

/-- The `while num > 0` loop of `random_open_acline` (lines 193-205),
threading the acline table and the in-memory graph.  `picks` supplies the
outcomes of `random.sample(range(len(indices)), 1)[0]` (reduced mod the
pool size so the function is total); every theorem quantifies over all pick
sequences.  Each iteration removes one candidate from `inds`, so fuel
`inds.length` suffices. -/
def roaLoop (keepLink : Bool) :
    ℕ → AclTable → List Edge → List ℕ → ℕ → List ℕ → List ℕ →
    RoaOut × AclTable × List Edge
  | fuel, acl, g, inds, num, picks, ret =>
    if num = 0 then (.ok ret.reverse, acl, g)
    else if inds.length < num then (.errInsufficient, acl, g)
    else
      match fuel with
      | 0 => (.errFuel, acl, g)
      | fuel' + 1 =>
        let idx := inds.getD (picks.headD 0 % inds.length) 0
        let inds' := inds.filter fun j => j ≠ idx
        -- `aclines.loc[idx, ...]`: the candidate always comes from the
        -- table, so the lookup never fails; `.getD` keeps the model total.
        let a := (alook acl idx).getD ⟨0, 0, 0⟩
        let e : Edge := (a.ibus, a.jbus, Sum.inl idx)
        if keepLink && PowerGraph.is_connected g a.ibus a.jbus [e] then
          roaLoop keepLink fuel' acl g inds' num picks.tail ret
        else
          roaLoop keepLink fuel' (setMark0 acl idx)
            (if keepLink then removeEdge g e else g)
            inds' (num - 1) picks.tail (idx :: ret)

/-- The candidate pool (line 190): in-service, non-self-loop aclines, in
table order. -/
def roaCandidates (p : Power) : List ℕ :=
  ((p.acline.filter fun q => q.2.mark = 1 ∧ q.2.ibus ≠ q.2.jbus).map Prod.fst)

/-- `random_open_acline` (lines 180-206 of `core/action.py`). -/
def random_open_acline (p : Power) (num : ℕ) (keepLink : Bool) (picks : List ℕ) :
    RoaOut × AclTable × List Edge :=
  let inds := roaCandidates p
  let g := if keepLink then PowerGraph.build p else []
  roaLoop keepLink inds.length p.acline g inds num picks []

/-! ## Concrete tables used by the witnesses -/

/-- The two-generator scenario of the spec: `pmax=[100,50]`, `p0=[80,30]`. -/
def gensW : GenTable := [(1, ⟨1, 80, 0, 100, 1⟩), (2, ⟨1, 30, 0, 50, 1⟩)]

/-- Generators for the C3 failing input: `p0=[5,7]`, `pmin=[1,2]`. -/
def gensNegW : GenTable := [(1, ⟨1, 5, 1, 100, 1⟩), (2, ⟨1, 7, 2, 100, 1⟩)]

/-- Loads for the C5 failing input: `p0=[10,30]`. -/
def loadsW : LoadTable := [(1, ⟨1, 10, 0, 0, 100, 0, 100⟩), (2, ⟨1, 30, 0, 0, 100, 0, 100⟩)]

/-- Loads for the C7 witness: `p0=[10,30]`, `q0=[5,6]`. -/
def loadsKfW : LoadTable := [(1, ⟨1, 10, 5, 0, 100, 0, 100⟩), (2, ⟨1, 30, 6, 0, 100, 0, 100⟩)]

/-- A one-row table with `p0 = q0 = 1` for the C8 counterexample. -/
def glW : LoadTable := [(1, ⟨1, 1, 1, 0, 100, 0, 100⟩)]

/-- The identifier sets of every table of a dataset. -/
def dsIds (data : Dataset) : List (String × List ℕ) :=
  data.map fun p => (p.1, p.2.rows.map Prod.fst)

/-- A one-table dataset with a single load row, for the C9 counterexample. -/
def dsW : Dataset := [("load", ⟨["p0"], [(1, [some 5])]⟩)]

/-- A one-table dataset with two load rows, for the C9/C10 witnesses. -/
def dsW2 : Dataset := [("load", ⟨["p0"], [(1, [some 5]), (2, [some 3])]⟩)]

/-- Two parallel in-service lines between buses 1 and 2 (C1 and C6
witnesses). -/
def powParallel : Power := ⟨[(1, ⟨1, 1, 2⟩), (2, ⟨1, 1, 2⟩)], []⟩

/-- Lines a=(1,2), b=(3,4), c=(3,4), all in service (C6 counterexample). -/
def powC6 : Power := ⟨[(1, ⟨1, 1, 2⟩), (2, ⟨1, 3, 4⟩), (3, ⟨1, 3, 4⟩)], []⟩

/-! ## Helper lemmas -/

theorem alook_cons {κ α : Type} [DecidableEq κ] (i : κ) (a : α) (t : List (κ × α)) (j : κ) :
    alook ((i, a) :: t) j = if i = j then some a else alook t j := rfl

/-- Lookup of a member of a table with no duplicate identifiers. -/
theorem alook_of_mem {κ α : Type} [DecidableEq κ] {l : List (κ × α)} {p : κ × α}
    (hnd : (l.map Prod.fst).Nodup) (hmem : p ∈ l) : alook l p.1 = some p.2 := by
  induction l with
  | nil => cases hmem
  | cons hd tl ih =>
    obtain ⟨i, a⟩ := hd
    simp only [List.map_cons, List.nodup_cons, List.mem_map] at hnd
    rcases List.mem_cons.mp hmem with h | h
    · subst h; simp [alook]
    · have hne : i ≠ p.1 := by
        intro he
        exact hnd.1 ⟨p, h, he.symm⟩
      simp [alook, hne, ih hnd.2 h]

/-- Lookup commutes with a keyed per-row map. -/
theorem alook_map {κ α β : Type} [DecidableEq κ] (f : κ → α → β) (l : List (κ × α)) (j : κ) :
    alook (l.map fun p => (p.1, f p.1 p.2)) j = (alook l j).map (f j) := by
  induction l with
  | nil => rfl
  | cons hd tl ih =>
    obtain ⟨i, a⟩ := hd
    by_cases h : i = j
    · subst h; simp [alook]
    · simp [alook, h, ih]

/-- A successful lookup is a member. -/
theorem mem_of_alook {κ α : Type} [DecidableEq κ] {l : List (κ × α)} {j : κ} {a : α}
    (h : alook l j = some a) : (j, a) ∈ l := by
  induction l with
  | nil => cases h
  | cons hd tl ih =>
    obtain ⟨i, b⟩ := hd
    by_cases hij : i = j
    · subst hij
      rw [alook_cons, if_pos rfl] at h
      cases h
      exact List.mem_cons_self _ _
    · rw [alook_cons, if_neg hij] at h
      exact List.mem_cons_of_mem _ (ih h)

/-- Lookup fails exactly off the key set. -/
theorem alook_eq_none {κ α : Type} [DecidableEq κ] {l : List (κ × α)} {j : κ}
    (h : j ∉ l.map Prod.fst) : alook l j = none := by
  induction l with
  | nil => rfl
  | cons hd tl ih =>
    obtain ⟨i, a⟩ := hd
    simp only [List.map_cons, List.mem_cons] at h
    push_neg at h
    have hne : i ≠ j := fun he => h.1 he.symm
    simp [alook, hne, ih h.2]

/-- Two members of a duplicate-free table sharing the identifier coincide. -/
theorem mem_eq_of_fst_eq {κ α : Type} [DecidableEq κ] {l : List (κ × α)} {p q : κ × α}
    (hnd : (l.map Prod.fst).Nodup) (hp : p ∈ l) (hq : q ∈ l) (hfst : p.1 = q.1) : p = q := by
  have hp' := alook_of_mem hnd hp
  have hq' := alook_of_mem hnd hq
  rw [hfst, hq'] at hp'
  obtain ⟨p1, p2⟩ := p
  obtain ⟨q1, q2⟩ := q
  cases hp'
  simp_all

/-- Zipping a list with its own image pairs each element with its image. -/
theorem zip_self_map {α β : Type} (f : α → β) (l : List α) :
    l.zip (l.map f) = l.map fun a => (a, f a) := by
  induction l with
  | nil => rfl
  | cons hd tl ih => simp [ih]

/-- A map that fixes every element of a list is the identity. -/
theorem map_eq_self_of {α : Type} {f : α → α} {l : List α}
    (h : ∀ x ∈ l, f x = x) : l.map f = l := by
  induction l with
  | nil => rfl
  | cons hd tl ih =>
    simp only [List.map_cons, h hd (List.mem_cons_self hd tl),
      ih fun x hx => h x (List.mem_cons_of_mem hd hx)]

/-- Dropping elements mapped to `0` does not change a sum. -/
theorem sum_map_filter_of_zero {α : Type} (p : α → Bool) (f : α → ℚ) (l : List α)
    (h : ∀ x ∈ l, p x = false → f x = 0) :
    ((l.filter p).map f).sum = (l.map f).sum := by
  induction l with
  | nil => rfl
  | cons hd tl ih =>
    have ihtl := ih fun x hx => h x (List.mem_cons_of_mem hd hx)
    by_cases hp : p hd
    · simp [List.filter_cons, hp, ihtl]
    · have h0 : f hd = 0 := h hd (List.mem_cons_self hd tl) (by simpa using hp)
      simp [List.filter_cons, hp, ihtl, h0]

theorem alook_updP0 (tbl : GenTable) (upd : List (ℕ × ℚ)) (j : ℕ) :
    alook (updP0 tbl upd) j = (alook tbl j).map (updFn upd j) :=
  alook_map (updFn upd) tbl j

/-- Every participant is a row of the full table. -/
theorem subSelect_mem {gens : GenTable} {indices : Option (List ℕ)} {p : ℕ × Gen}
    (hp : p ∈ subSelect gens indices) : p ∈ gens := by
  have hsub0 : ∀ q : ℕ × Gen, q ∈ gens.filter (fun r => r.2.mark = 1) → q ∈ gens :=
    fun q hq => (List.mem_filter.mp hq).1
  cases indices with
  | none => exact hsub0 p hp
  | some is =>
    by_cases he : is.isEmpty
    · simp only [subSelect, he, if_true] at hp
      exact hsub0 p hp
    · simp only [subSelect, he, if_false] at hp
      obtain ⟨i, _, hi⟩ := List.mem_filterMap.mp hp
      obtain ⟨g, hg, hgp⟩ := Option.map_eq_some'.mp hi
      cases hgp
      exact hsub0 _ (mem_of_alook hg)

/-- The keyed lookup into the saturation assignment
`sub2.map fun p => (p.1, f p.1 p.2)`. -/
theorem alook_map_snd {α : Type} (f : ℕ → Gen → α) (l : GenTable) (j : ℕ) :
    alook (l.map fun p => (p.1, f p.1 p.2)) j = (alook l j).map (f j) :=
  alook_map f l j

/-- Claim C4: for `distribute_generators_p` with `delta > 0` and total upward
headroom at most `delta` (including an empty candidate set with headroom 0),
every candidate generator's `p0` is set to its `pmax` and the function
returns the scalar `delta - totalHeadroom`.  (Rows of the participant set
are assumed within their limits, the invariant of spec section 3, so the
`pmax > p0` filter drops only zero-headroom rows.) -/
theorem distribute_generators_p_saturates (gens : GenTable) (delta : ℚ)
    (indices : Option (List ℕ)) (sigma : Option (List ℚ)) (clip : Bool)
    (hnd : (gens.map Prod.fst).Nodup)
    (hsubnd : ((subSelect gens indices).map Prod.fst).Nodup)
    (hbounds : ∀ p ∈ subSelect gens indices, p.2.p0 ≤ p.2.pmax)
    (hdelta : 0 < delta) (hH : genHeadroom gens indices ≤ delta) :
    (distribute_generators_p gens delta indices sigma clip).1
        = .scalar (delta - genHeadroom gens indices)
      ∧ ∀ p ∈ subSelect gens indices,
          alook (distribute_generators_p gens delta indices sigma clip).2 p.1
            = some { p.2 with p0 := p.2.pmax } := by
  have hmsum :
      (((subSelect gens indices).filter fun p => p.2.p0 < p.2.pmax).map
          (fun p => p.2.pmax - p.2.p0)).sum = genHeadroom gens indices := by
    refine sum_map_filter_of_zero _ _ _ ?_
    intro x hx hfalse
    have h2 : ¬ x.2.p0 < x.2.pmax := by simpa using hfalse
    have h3 := hbounds x hx
    linarith
  have hrun : distribute_generators_p gens delta indices sigma clip
      = (.scalar (delta - genHeadroom gens indices),
          updP0 gens (((subSelect gens indices).filter fun p => p.2.p0 < p.2.pmax).map
            fun p => (p.1, p.2.pmax))) := by
    simp only [distribute_generators_p, List.map_map, Function.comp_def]
    rw [if_pos hdelta, hmsum, if_pos hH]
  refine ⟨by rw [hrun], ?_⟩
  intro p hp
  rw [hrun]
  have hpg : p ∈ gens := subSelect_mem hp
  have hrow : alook gens p.1 = some p.2 := alook_of_mem hnd hpg
  rw [alook_updP0, hrow, Option.map_some']
  have hsub2nd : (((subSelect gens indices).filter fun q => q.2.p0 < q.2.pmax).map
      Prod.fst).Nodup :=
    List.Nodup.sublist (List.Sublist.map _ (List.filter_sublist _)) hsubnd
  by_cases hlt : p.2.p0 < p.2.pmax
  · have hmem2 : p ∈ (subSelect gens indices).filter fun q => q.2.p0 < q.2.pmax :=
      List.mem_filter.mpr ⟨hp, by simpa using hlt⟩
    have hl : alook (((subSelect gens indices).filter fun q => q.2.p0 < q.2.pmax).map
        fun q => (q.1, q.2.pmax)) p.1 = some p.2.pmax := by
      have h1 := alook_map_snd (fun _ g => g.pmax)
        ((subSelect gens indices).filter fun q => q.2.p0 < q.2.pmax) p.1
      rw [h1, alook_of_mem hsub2nd hmem2, Option.map_some']
    simp [updFn, hl]
  · have hpe : p.2.p0 = p.2.pmax := le_antisymm (hbounds p hp) (not_lt.mp hlt)
    have hnone : alook (((subSelect gens indices).filter fun q => q.2.p0 < q.2.pmax).map
        fun q => (q.1, q.2.pmax)) p.1 = none := by
      apply alook_eq_none
      rw [List.map_map]
      intro hmem
      obtain ⟨q, hq, hq1⟩ := List.mem_map.mp hmem
      have hq' : q ∈ subSelect gens indices := (List.mem_filter.mp hq).1
      have : q = p := mem_eq_of_fst_eq hsubnd hq' hp hq1
      subst this
      have : q.2.p0 < q.2.pmax := by
        have := (List.mem_filter.mp hq).2
        simpa using this
      exact hlt this
    simp only [updFn, hnone]
    obtain ⟨i, g⟩ := p
    obtain ⟨gm, gp0, gpmin, gpmax, gv0⟩ := g
    simp only at hpe
    rw [hpe]

/-- Claim C2: for `distribute_generators_p` with `delta > 0`, `sigma=None`
and total upward headroom strictly greater than `delta`, the call returns
the scalar `0`, each participant's `p0` increases by exactly
`(pmax - p0) / totalHeadroom * delta`, and those increases sum to `delta`.
(Rows of the participant set are assumed within their limits, the invariant
of spec section 3.) -/
theorem distribute_generators_p_full_allocation (gens : GenTable) (delta : ℚ)
    (indices : Option (List ℕ)) (clip : Bool)
    (hnd : (gens.map Prod.fst).Nodup)
    (hsubnd : ((subSelect gens indices).map Prod.fst).Nodup)
    (hbounds : ∀ p ∈ subSelect gens indices, p.2.pmin ≤ p.2.p0 ∧ p.2.p0 ≤ p.2.pmax)
    (hdelta : 0 < delta) (hH : delta < genHeadroom gens indices) :
    (distribute_generators_p gens delta indices none clip).1 = .scalar 0
      ∧ (∀ p ∈ subSelect gens indices,
          alook (distribute_generators_p gens delta indices none clip).2 p.1
            = some { p.2 with
                p0 := p.2.p0 + (p.2.pmax - p.2.p0) / genHeadroom gens indices * delta })
      ∧ ((subSelect gens indices).map
            fun p => (p.2.pmax - p.2.p0) / genHeadroom gens indices * delta).sum = delta := by
  have hHpos : 0 < genHeadroom gens indices := lt_trans hdelta hH
  have hmsum :
      (((subSelect gens indices).filter fun p => p.2.p0 < p.2.pmax).map
          (fun p => p.2.pmax - p.2.p0)).sum = genHeadroom gens indices := by
    refine sum_map_filter_of_zero _ _ _ ?_
    intro x hx hfalse
    have h2 : ¬ x.2.p0 < x.2.pmax := by simpa using hfalse
    have h3 := (hbounds x hx).2
    linarith
  have hrun : distribute_generators_p gens delta indices none clip
      = (.scalar 0,
          (if clip then
            (updP0 gens (((subSelect gens indices).filter fun p => p.2.p0 < p.2.pmax).map
              fun p => (p.1, p.2.p0 + (p.2.pmax - p.2.p0) / genHeadroom gens indices * delta))).map
                fun p => (p.1, { p.2 with p0 := rclip p.2.p0 p.2.pmin p.2.pmax })
          else
            updP0 gens (((subSelect gens indices).filter fun p => p.2.p0 < p.2.pmax).map
              fun p => (p.1, p.2.p0 + (p.2.pmax - p.2.p0) / genHeadroom gens indices * delta)))) := by
    simp only [distribute_generators_p, List.map_map, Function.comp_def]
    rw [if_pos hdelta, hmsum, if_neg (not_le.mpr hH)]
    simp only [dgpApply, zip_self_map, List.map_map, Function.comp_def, hmsum]
  refine ⟨by rw [hrun], ?_, ?_⟩
  · intro p hp
    rw [hrun]
    have hpg : p ∈ gens := subSelect_mem hp
    have hrow : alook gens p.1 = some p.2 := alook_of_mem hnd hpg
    have hsub2nd : (((subSelect gens indices).filter fun q => q.2.p0 < q.2.pmax).map
        Prod.fst).Nodup :=
      List.Nodup.sublist (List.Sublist.map _ (List.filter_sublist _)) hsubnd
    have hbl := (hbounds p hp).1
    have hbu := (hbounds p hp).2
    -- value of the aligned assignment at p.1
    have hupd : updFn (((subSelect gens indices).filter fun q => q.2.p0 < q.2.pmax).map
          fun q => (q.1, q.2.p0 + (q.2.pmax - q.2.p0) / genHeadroom gens indices * delta))
          p.1 p.2
        = { p.2 with p0 := p.2.p0 + (p.2.pmax - p.2.p0) / genHeadroom gens indices * delta } := by
      by_cases hlt : p.2.p0 < p.2.pmax
      · have hmem2 : p ∈ (subSelect gens indices).filter fun q => q.2.p0 < q.2.pmax :=
          List.mem_filter.mpr ⟨hp, by simpa using hlt⟩
        have h1 := alook_map_snd
          (fun _ g => g.p0 + (g.pmax - g.p0) / genHeadroom gens indices * delta)
          ((subSelect gens indices).filter fun q => q.2.p0 < q.2.pmax) p.1
        rw [alook_of_mem hsub2nd hmem2, Option.map_some'] at h1
        simp only [updFn, h1]
      · have hpe : p.2.p0 = p.2.pmax := le_antisymm hbu (not_lt.mp hlt)
        have hnone : alook (((subSelect gens indices).filter fun q => q.2.p0 < q.2.pmax).map
            fun q => (q.1, q.2.p0 + (q.2.pmax - q.2.p0) / genHeadroom gens indices * delta))
            p.1 = none := by
          apply alook_eq_none
          rw [List.map_map]
          intro hmem
          obtain ⟨q, hq, hq1⟩ := List.mem_map.mp hmem
          have hq' : q ∈ subSelect gens indices := (List.mem_filter.mp hq).1
          have heq : q = p := mem_eq_of_fst_eq hsubnd hq' hp hq1
          subst heq
          have : q.2.p0 < q.2.pmax := by simpa using (List.mem_filter.mp hq).2
          exact hlt this
        simp only [updFn, hnone]
        obtain ⟨i, g⟩ := p
        obtain ⟨gm, gp0, gpmin, gpmax, gv0⟩ := g
        simp only at hpe
        subst hpe
        simp
    -- the new value stays strictly inside the limits
    have hshare : p.2.p0 + (p.2.pmax - p.2.p0) / genHeadroom gens indices * delta
        ∈ Set.Icc p.2.pmin p.2.pmax := by
      constructor
      · have : 0 ≤ (p.2.pmax - p.2.p0) / genHeadroom gens indices * delta := by
          apply mul_nonneg (div_nonneg (by linarith) (le_of_lt hHpos)) (le_of_lt hdelta)
        linarith
      · by_cases hlt : p.2.p0 < p.2.pmax
        · have hm : p.2.pmax - p.2.p0 > 0 := by linarith
          have hfrac : delta / genHeadroom gens indices < 1 :=
            (div_lt_one hHpos).mpr hH
          have : (p.2.pmax - p.2.p0) / genHeadroom gens indices * delta
              = (p.2.pmax - p.2.p0) * (delta / genHeadroom gens indices) := by ring
          rw [this]
          have h4 : (p.2.pmax - p.2.p0) * (delta / genHeadroom gens indices)
              < (p.2.pmax - p.2.p0) * 1 := by
            apply mul_lt_mul_of_pos_left hfrac hm
          linarith
        · have hpe : p.2.p0 = p.2.pmax := le_antisymm hbu (not_lt.mp hlt)
          rw [hpe]
          simp
    have hclip : rclip (p.2.p0 + (p.2.pmax - p.2.p0) / genHeadroom gens indices * delta)
        p.2.pmin p.2.pmax
        = p.2.p0 + (p.2.pmax - p.2.p0) / genHeadroom gens indices * delta := by
      unfold rclip
      rw [max_eq_left hshare.1, min_eq_left hshare.2]
    cases clip with
    | false =>
      rw [if_neg (by simp)]
      rw [alook_updP0, hrow, Option.map_some', hupd]
    | true =>
      rw [if_pos rfl]
      have hcl := alook_map (fun _ (g : Gen) => { g with p0 := rclip g.p0 g.pmin g.pmax })
        (updP0 gens (((subSelect gens indices).filter fun q => q.2.p0 < q.2.pmax).map
          fun q => (q.1, q.2.p0 + (q.2.pmax - q.2.p0) / genHeadroom gens indices * delta))) p.1
      simp only [hcl, alook_updP0, hrow, Option.map_some', hupd]
      simp [hclip]
  · have hfn : ((subSelect gens indices).map
        fun p => (p.2.pmax - p.2.p0) / genHeadroom gens indices * delta)
        = (subSelect gens indices).map
          fun p => (p.2.pmax - p.2.p0) * (delta / genHeadroom gens indices) := by
      apply List.map_congr_left
      intro a _
      ring
    rw [hfn, List.sum_map_mul_right]
    have hS : ((subSelect gens indices).map fun p => p.2.pmax - p.2.p0).sum ≠ 0 :=
      ne_of_gt hHpos
    unfold genHeadroom
    rw [mul_comm]
    exact div_mul_cancel₀ _ hS

/-- Witness for C4, the concrete scenario of the spec: `pmax=[100,50]`,
`p0=[80,30]`, `delta=40` saturates both generators (`p0=[100,50]`) and
returns unmet `0.0`. -/
theorem distribute_generators_p_saturates_witness :
    genHeadroom gensW none = 40
    ∧ ((distribute_generators_p gensW 40 none none true).1
          = .scalar (40 - genHeadroom gensW none)
        ∧ ∀ p ∈ subSelect gensW none,
            alook (distribute_generators_p gensW 40 none none true).2 p.1
              = some { p.2 with p0 := p.2.pmax }) :=
  ⟨by norm_num [genHeadroom, subSelect, gensW],
    distribute_generators_p_saturates gensW 40 none none true (by decide) (by decide)
      (by decide) (by norm_num)
      (le_of_eq (by norm_num [genHeadroom, subSelect, gensW]))⟩

/-- Witness for C2: the same table with `delta = 20 < 40 = totalHeadroom`
allocates shares `10, 10` and returns `0`. -/
theorem distribute_generators_p_full_allocation_witness :
    genHeadroom gensW none = 40
    ∧ ((distribute_generators_p gensW 20 none none true).1 = .scalar 0
        ∧ (∀ p ∈ subSelect gensW none,
            alook (distribute_generators_p gensW 20 none none true).2 p.1
              = some { p.2 with p0 := p.2.p0 + (p.2.pmax - p.2.p0) / genHeadroom gensW none * 20 })
        ∧ ((subSelect gensW none).map
              fun p => (p.2.pmax - p.2.p0) / genHeadroom gensW none * 20).sum = 20) :=
  ⟨by norm_num [genHeadroom, subSelect, gensW],
    distribute_generators_p_full_allocation gensW 20 none true (by decide) (by decide)
      (by decide) (by norm_num)
      (by rw [show genHeadroom gensW none = 40 from by norm_num [genHeadroom, subSelect, gensW]]
          norm_num)⟩

/-- `np.clip` is the identity inside the limits. -/
theorem rclip_of_le {x lo hi : ℚ} (h1 : lo ≤ x) (h2 : x ≤ hi) : rclip x lo hi = x := by
  unfold rclip
  rw [max_eq_left h1, min_eq_left h2]

theorem LoadR_eta_p0 (l : LoadR) : ({ l with p0 := l.p0 } : LoadR) = l := by cases l; rfl

theorem LoadR_eta_q0 (l : LoadR) : ({ l with q0 := l.q0 } : LoadR) = l := by cases l; rfl

theorem qFn_p0 (factor : List (ℕ × ℚ)) (i : ℕ) (l : LoadR) : (qFn factor i l).p0 = l.p0 := by
  cases h : alook factor i <;> simp [qFn, h]

theorem qFn_pmin (factor : List (ℕ × ℚ)) (i : ℕ) (l : LoadR) : (qFn factor i l).pmin = l.pmin := by
  cases h : alook factor i <;> simp [qFn, h]

theorem qFn_pmax (factor : List (ℕ × ℚ)) (i : ℕ) (l : LoadR) : (qFn factor i l).pmax = l.pmax := by
  cases h : alook factor i <;> simp [qFn, h]

theorem alook_updLP0 (tbl : LoadTable) (upd : List (ℕ × ℚ)) (j : ℕ) :
    alook (updLP0 tbl upd) j = (alook tbl j).map (updLFn upd j) :=
  alook_map (updLFn upd) tbl j

theorem alook_setQFactor (factor : List (ℕ × ℚ)) (tbl : LoadTable) (j : ℕ) :
    alook (setQFactor factor tbl) j = (alook tbl j).map (qFn factor j) :=
  alook_map (qFn factor) tbl j

/-- Every participant of `distribute_loads_p` is a row of the full table. -/
theorem dlpSelect_mem {loads : LoadTable} {indices : Option (List ℕ)} {p : ℕ × LoadR}
    (hp : p ∈ dlpSelect loads indices) : p ∈ loads := by
  have hsub0 : ∀ q : ℕ × LoadR,
      q ∈ loads.filter (fun r => r.2.mark = 1 ∧ 0 < r.2.p0) → q ∈ loads :=
    fun q hq => (List.mem_filter.mp hq).1
  cases indices with
  | none => exact hsub0 p hp
  | some is =>
    by_cases he : is.isEmpty
    · simp only [dlpSelect, he, if_true] at hp
      exact hsub0 p hp
    · simp only [dlpSelect, he, if_false] at hp
      obtain ⟨i, _, hi⟩ := List.mem_filterMap.mp hp
      obtain ⟨g, hg, hgp⟩ := Option.map_eq_some'.mp hi
      cases hgp
      exact hsub0 _ (mem_of_alook hg)

/-- The `keep_factor`, no-sigma, no-clip run of `distribute_loads_p`: each
participant's row after the call. -/
theorem dlp_keepFactor_false_alook (loads : LoadTable) (delta : ℚ)
    (indices : Option (List ℕ))
    (hnd : (loads.map Prod.fst).Nodup)
    (hsubnd : ((dlpSelect loads indices).map Prod.fst).Nodup)
    {p : ℕ × LoadR} (hp : p ∈ dlpSelect loads indices) :
    alook (distribute_loads_p loads delta indices none true none false) p.1
      = some { p.2 with
          p0 := p.2.p0 + p.2.p0 / ((dlpSelect loads indices).map fun q => q.2.p0).sum * delta
          q0 := (p.2.p0 + p.2.p0 / ((dlpSelect loads indices).map fun q => q.2.p0).sum * delta)
                  * (p.2.q0 / p.2.p0) } := by
  have hrow : alook loads p.1 = some p.2 := alook_of_mem hnd (dlpSelect_mem hp)
  have hupd := alook_map
    (fun _ (l : LoadR) =>
      l.p0 + l.p0 / ((dlpSelect loads indices).map fun q => q.2.p0).sum * delta)
    (dlpSelect loads indices) p.1
  rw [alook_of_mem hsubnd hp, Option.map_some'] at hupd
  have hfac := alook_map (fun _ (l : LoadR) => l.q0 / l.p0) (dlpSelect loads indices) p.1
  rw [alook_of_mem hsubnd hp, Option.map_some'] at hfac
  simp only [distribute_loads_p, List.map_map, Function.comp_def, Bool.false_eq_true,
    if_false, if_true, Bool.and_false]
  rw [alook_setQFactor, alook_updLP0, hrow, Option.map_some', Option.map_some']
  simp only [updLFn, hupd, qFn, hfac]

/-- The clip stages are inert when every post-mutation value of the
unclipped run is within its limits. -/
theorem dlp_keepFactor_clip_inert (loads : LoadTable) (delta : ℚ)
    (indices : Option (List ℕ))
    (hnoclip : ∀ p ∈ distribute_loads_p loads delta indices none true none false,
        p.2.pmin ≤ p.2.p0 ∧ p.2.p0 ≤ p.2.pmax ∧ p.2.qmin ≤ p.2.q0 ∧ p.2.q0 ≤ p.2.qmax) :
    distribute_loads_p loads delta indices none true none true
      = distribute_loads_p loads delta indices none true none false := by
  simp only [distribute_loads_p, List.map_map, Function.comp_def, Bool.false_eq_true,
    if_false, if_true, Bool.and_false, Bool.and_true] at hnoclip ⊢
  set factor := (dlpSelect loads indices).map
    (fun p => (p.1, p.2.q0 / p.2.p0)) with hfactor
  set loads1 := updLP0 loads ((dlpSelect loads indices).map
    (fun p => (p.1, p.2.p0 + p.2.p0 /
      ((dlpSelect loads indices).map fun q => q.2.p0).sum * delta))) with hloads1
  have hP : ∀ p ∈ loads1, p.2.pmin ≤ p.2.p0 ∧ p.2.p0 ≤ p.2.pmax := by
    intro p hp
    have hmem : (p.1, qFn factor p.1 p.2) ∈ setQFactor factor loads1 :=
      List.mem_map.mpr ⟨p, hp, rfl⟩
    have := hnoclip _ hmem
    simp only [qFn_p0, qFn_pmin, qFn_pmax] at this
    exact ⟨this.1, this.2.1⟩
  have hclipP : clipP loads1 = loads1 := by
    apply map_eq_self_of
    intro p hp
    rw [rclip_of_le (hP p hp).1 (hP p hp).2, LoadR_eta_p0]
  have hQ : ∀ p ∈ setQFactor factor loads1, p.2.qmin ≤ p.2.q0 ∧ p.2.q0 ≤ p.2.qmax := by
    intro p hp
    have := hnoclip _ hp
    exact ⟨this.2.2.1, this.2.2.2⟩
  have hclipQ : clipQ (setQFactor factor loads1) = setQFactor factor loads1 := by
    apply map_eq_self_of
    intro p hp
    rw [rclip_of_le (hQ p hp).1 (hQ p hp).2, LoadR_eta_q0]
  rw [hclipP, hclipQ]

/-- Claim C7: `distribute_loads_p` with `keepFactor=true`, `factorSigma=None`,
`pSigma=None` and no clipping taking effect (`clip=false`, or every
post-mutation value of the run already within its limits) preserves each
participant's `q0/p0` ratio (stated for participants whose post-call `p0`
is non-zero, the ratio being undefined otherwise). -/
theorem distribute_loads_p_keep_factor_ratio (loads : LoadTable) (delta : ℚ)
    (indices : Option (List ℕ)) (clip : Bool)
    (hnd : (loads.map Prod.fst).Nodup)
    (hsubnd : ((dlpSelect loads indices).map Prod.fst).Nodup)
    (hnoclip : clip = true → ∀ p ∈ distribute_loads_p loads delta indices none true none false,
        p.2.pmin ≤ p.2.p0 ∧ p.2.p0 ≤ p.2.pmax ∧ p.2.qmin ≤ p.2.q0 ∧ p.2.q0 ≤ p.2.qmax) :
    ∀ p ∈ dlpSelect loads indices, ∀ l',
      alook (distribute_loads_p loads delta indices none true none clip) p.1 = some l' →
      l'.p0 ≠ 0 → l'.q0 / l'.p0 = p.2.q0 / p.2.p0 := by
  have hfalse : ∀ p ∈ dlpSelect loads indices, ∀ l',
      alook (distribute_loads_p loads delta indices none true none false) p.1 = some l' →
      l'.p0 ≠ 0 → l'.q0 / l'.p0 = p.2.q0 / p.2.p0 := by
    intro p hp l' hl' hne
    rw [dlp_keepFactor_false_alook loads delta indices hnd hsubnd hp] at hl'
    cases hl'
    simp only at hne ⊢
    exact mul_div_cancel_left₀ _ hne
  cases clip with
  | false => exact hfalse
  | true =>
    intro p hp l' hl' hne
    rw [dlp_keepFactor_clip_inert loads delta indices (hnoclip rfl)] at hl'
    exact hfalse p hp l' hl' hne

/-- Witness for C7: two loads `p0=[10,30]`, `q0=[5,6]`, `delta=8`,
`clip=false`; both participants keep their reactive/active ratios. -/
theorem distribute_loads_p_keep_factor_ratio_witness :
    (1, (⟨1, 10, 5, 0, 100, 0, 100⟩ : LoadR)) ∈ dlpSelect loadsKfW none
    ∧ (∀ p ∈ dlpSelect loadsKfW none, ∀ l',
        alook (distribute_loads_p loadsKfW 8 none none true none false) p.1 = some l' →
        l'.p0 ≠ 0 → l'.q0 / l'.p0 = p.2.q0 / p.2.p0) :=
  ⟨by decide,
    distribute_loads_p_keep_factor_ratio loadsKfW 8 none false (by decide) (by decide)
      (by simp)⟩

/-- Claim C3 (code bug, evaluation at the failing input): for two in-service
generators with `p0=[5,7]`, `pmin=[1,2]` and `delta=-20`, the downward
headroom is `4+5=9 ≤ 20`, both generators are set to `pmin`, but line 75
returns `delta + margin` — the per-generator Series `[-16, -15]` — instead
of the documented scalar float `delta + totalHeadroom = -11`. -/
theorem distribute_generators_p_neg_series_eval :
    (distribute_generators_p gensNegW (-20) none none true).1 = .series [(1, -16), (2, -15)]
      ∧ (∀ r : ℚ, (distribute_generators_p gensNegW (-20) none none true).1 ≠ .scalar r)
      ∧ alook (distribute_generators_p gensNegW (-20) none none true).2 1
          = some ⟨1, 1, 1, 100, 1⟩
      ∧ alook (distribute_generators_p gensNegW (-20) none none true).2 2
          = some ⟨1, 2, 2, 100, 1⟩ := by
  refine ⟨?_, ?_, ?_, ?_⟩
  · norm_num [distribute_generators_p, subSelect, updP0, updFn, alook, gensNegW]
  · have h1 : (distribute_generators_p gensNegW (-20) none none true).1
        = .series [(1, -16), (2, -15)] := by
      norm_num [distribute_generators_p, subSelect, updP0, updFn, alook, gensNegW]
    rw [h1]
    intro r h
    exact DgpRet.noConfusion h
  · norm_num [distribute_generators_p, subSelect, updP0, updFn, alook, gensNegW]
  · norm_num [distribute_generators_p, subSelect, updP0, updFn, alook, gensNegW]

/-- Claim C5 (code bug, evaluation at the failing input): loads `p0=[10,30]`
with `pSigma` multipliers `[2,1]` and `delta=5`.  Because `ratio = sub['p0']`
aliases the column, the in-place perturbation also rewrites the base, so
load 1 ends at `20 + 20/50*5 = 22` instead of the claimed
`10 + 20/50*5 = 12`. -/
theorem distribute_loads_p_perturbed_base_eval :
    ((distribute_loads_p loadsW 5 none (some [2, 1]) false none false).map
        fun p => (p.1, p.2.p0)) = [(1, 22), (2, 33)]
      ∧ (22 : ℚ) ≠ 10 + 10 * 2 / (10 * 2 + 30 * 1) * 5 := by
  constructor <;>
    norm_num [distribute_loads_p, dlpSelect, updLP0, updLFn, alook, loadsW]

/-- Claim C8, amended: `set_gl_p0` with `keepFactor=true`, `clip=false` and
`valueArray` equal to the current `p0` column keeps `p0` and rescales each
`q0` to `q0 * p0 / (p0 + ε)` — the original `q0` is reproduced only where
that product equals `q0` (e.g. rows with `q0 = 0`). -/
theorem set_gl_p0_roundtrip_scaled (rows : LoadTable) :
    set_gl_p0 rows (rows.map fun p => p.2.p0) true false
      = rows.map fun p => (p.1, { p.2 with q0 := p.2.p0 * (p.2.q0 / (p.2.p0 + EPS)) }) := by
  unfold set_gl_p0
  rw [zip_self_map]
  simp only [List.map_map, Function.comp_def, Bool.false_eq_true, if_false, if_true]

/-- Counterexample to C8 as stated: a single row with `p0 = q0 = 1` comes
back with `q0 = 10^8/(10^8+1) ≠ 1`. -/
theorem set_gl_p0_roundtrip_counterexample :
    alook (set_gl_p0 glW (glW.map fun p => p.2.p0) true false) 1
        = some ⟨1, 1, 100000000 / 100000001, 0, 100, 0, 100⟩
      ∧ ((100000000 : ℚ) / 100000001) ≠ 1 := by
  constructor
  · norm_num [set_gl_p0, glW, EPS, alook]
  · norm_num

theorem getD_set_self {r : List (Option ℚ)} {j : ℕ} (h : j < r.length) (v : Option ℚ) :
    (r.set j v).getD j none = v := by
  induction r generalizing j with
  | nil => cases h
  | cons hd tl ih =>
    cases j with
    | zero => rfl
    | succ j' => exact ih (Nat.lt_of_succ_lt_succ h) 

theorem lt_length_of_getD {r : List (Option ℚ)} {j : ℕ} {x : ℚ}
    (h : r.getD j none = some x) : j < r.length := by
  by_contra hle
  rw [List.getD_eq_default] at h
  · cases h
  · omega

theorem alook_isSome_iff {κ α : Type} [DecidableEq κ] {l : List (κ × α)} {j : κ} :
    (alook l j).isSome ↔ j ∈ l.map Prod.fst := by
  induction l with
  | nil => simp [alook]
  | cons hd tl ih =>
    obtain ⟨i, a⟩ := hd
    by_cases h : i = j
    · subst h; simp [alook]
    · have h2 : ¬ j = i := fun he => h he.symm
      simp [alook, h, h2, ih]

theorem locSet_cols (t : Table) (k : ℕ) (c : String) (v : Option ℚ) :
    (locSet t k c v).cols = t.cols := by
  unfold locSet
  cases colPos t c with
  | none => rfl
  | some j =>
    by_cases h : (alook t.rows k).isSome <;> simp [h]

theorem locSet_ids_of_present (t : Table) (k : ℕ) (c : String) (v : Option ℚ)
    (h : (alook t.rows k).isSome) :
    (locSet t k c v).rows.map Prod.fst = t.rows.map Prod.fst := by
  unfold locSet
  cases colPos t c with
  | none => rfl
  | some j =>
    simp [h, List.map_map, Function.comp_def]

theorem locGet_cols_eq {t t' : Table} (hc : t'.cols = t.cols)
    (hr : ∀ k, alook t'.rows k = alook t.rows k) (k : ℕ) (c : String) :
    locGet t' k c = locGet t k c := by
  unfold locGet colPos
  rw [hc, hr]

theorem alook_locSet_present (t : Table) (k : ℕ) (c : String) (v : Option ℚ) (j : ℕ)
    (hj : colPos t c = some j) (hk : (alook t.rows k).isSome) (k' : ℕ) :
    alook (locSet t k c v).rows k'
      = (alook t.rows k').map fun r => if k' = k then r.set j v else r := by
  unfold locSet
  rw [hj]
  simp only [hk, if_true]
  exact alook_map (fun i r => if i = k then r.set j v else r) t.rows k'

theorem locGet_locSet_self (t : Table) (k : ℕ) (c : String) (v : Option ℚ) {q : ℚ}
    (hcell : locGet t k c = some (some q)) :
    locGet (locSet t k c v) k c = some v := by
  unfold locGet at hcell
  cases hj : colPos t c with
  | none => rw [hj] at hcell; cases hcell
  | some j =>
    rw [hj] at hcell
    cases hr : alook t.rows k with
    | none => rw [hr] at hcell; cases hcell
    | some r =>
      rw [hr] at hcell
      have hget : r.getD j none = some q := by
        simpa using hcell
      have hk : (alook t.rows k).isSome := by rw [hr]; rfl
      unfold locGet
      rw [show colPos (locSet t k c v) c = some j from by rw [colPos, locSet_cols, ← colPos, hj]]
      rw [alook_locSet_present t k c v j hj hk k, hr]
      show Option.map (fun r => r.getD j none) (some (if k = k then r.set j v else r)) = some v
      rw [if_pos rfl, Option.map_some', getD_set_self (lt_length_of_getD hget) v]

theorem locGet_locSet_ne (t : Table) (k : ℕ) (c : String) (v : Option ℚ) {k' : ℕ}
    (hne : k' ≠ k) (hk : (alook t.rows k).isSome) :
    locGet (locSet t k c v) k' c = locGet t k' c := by
  cases hj : colPos t c with
  | none =>
    have : locSet t k c v = t := by unfold locSet; rw [hj]
    rw [this]
  | some j =>
    unfold locGet
    rw [show colPos (locSet t k c v) c = colPos t c from by rw [colPos, locSet_cols, ← colPos]]
    rw [alook_locSet_present t k c v j hj hk k']
    cases alook t.rows k' with
    | none => rfl
    | some r => simp [hne]

theorem alook_dsSet_self (data : Dataset) (etype : String) (t' : Table) {t : Table}
    (h : alook data etype = some t) :
    alook (dsSet data etype t') etype = some t' := by
  unfold dsSet
  rw [alook_map (fun i tb => if i = etype then t' else tb) data etype, h]
  simp

theorem dsSet_keys (data : Dataset) (etype : String) (t' : Table) :
    (dsSet data etype t').map Prod.fst = data.map Prod.fst := by
  unfold dsSet
  rw [List.map_map]
  rfl

theorem dsIds_dsSet {data : Dataset} {etype : String} {t t' : Table}
    (hnd : (data.map Prod.fst).Nodup)
    (h : alook data etype = some t)
    (hids : t'.rows.map Prod.fst = t.rows.map Prod.fst) :
    dsIds (dsSet data etype t') = dsIds data := by
  induction data with
  | nil => rfl
  | cons hd tl ih =>
    obtain ⟨n, tb⟩ := hd
    simp only [List.map_cons, List.nodup_cons] at hnd
    by_cases hn : n = etype
    · subst hn
      rw [alook_cons, if_pos rfl] at h
      cases h
      have htl : dsSet tl n t' = tl := by
        unfold dsSet
        apply map_eq_self_of
        intro p hp
        have hne : p.1 ≠ n := by
          intro he
          exact hnd.1 (by rw [← he]; exact List.mem_map_of_mem Prod.fst hp)
        simp [hne]
      have hlhs : dsSet ((n, t) :: tl) n t' = (n, t') :: dsSet tl n t' := by
        simp [dsSet]
      rw [hlhs, htl]
      unfold dsIds
      simp only [List.map_cons, hids]
    · rw [alook_cons, if_neg hn] at h
      have hrec := ih hnd.2 h
      have hlhs : dsSet ((n, tb) :: tl) etype t' = (n, tb) :: dsSet tl etype t' := by
        simp [dsSet, hn]
      rw [hlhs]
      unfold dsIds at hrec ⊢
      simp only [List.map_cons, hrec]

theorem locGet_row_isSome {t : Table} {k : ℕ} {c : String} {cell : Option ℚ}
    (h : locGet t k c = some cell) : (alook t.rows k).isSome := by
  unfold locGet at h
  cases hj : colPos t c with
  | none => rw [hj] at h; cases h
  | some j =>
    rw [hj] at h
    cases hr : alook t.rows k with
    | none => rw [hr] at h; cases h
    | some r => rfl

theorem svDictLoop_ne_incomplete (etype c : String) (delta : Bool)
    (m : List (ℕ × ℚ)) : ∀ (data : Dataset),
    (svDictLoop etype c delta m data).1 ≠ some .incomplete := by
  induction m with
  | nil => intro data h; cases h
  | cons hd tl ih =>
    intro data
    obtain ⟨k, v⟩ := hd
    simp only [svDictLoop]
    split
    · intro hc; cases hc
    · split
      · split
        · intro hc; cases hc
        · exact ih _
      · exact ih _

theorem svDictLoop_spec (etype c : String) (delta : Bool) (m : List (ℕ × ℚ)) :
    ∀ (data : Dataset) (t : Table),
      alook data etype = some t → c ∈ t.cols → (m.map Prod.fst).Nodup →
      (∀ kv ∈ m, ∃ q : ℚ, locGet t kv.1 c = some (some q)) →
      (svDictLoop etype c delta m data).1 = none
      ∧ ∃ t', alook (svDictLoop etype c delta m data).2 etype = some t'
          ∧ (∀ k', k' ∉ m.map Prod.fst → locGet t' k' c = locGet t k' c)
          ∧ (∀ kv ∈ m, ∀ q : ℚ, locGet t kv.1 c = some (some q) →
              locGet t' kv.1 c = some (some (if delta then q + kv.2 else kv.2))) := by
  induction m with
  | nil =>
    intro data t ht hc hnd hcells
    exact ⟨rfl, t, ht, fun k' _ => rfl, fun kv hkv => absurd hkv (List.not_mem_nil _)⟩
  | cons hd tl ih =>
    intro data t ht hc hnd hcells
    obtain ⟨k, v⟩ := hd
    obtain ⟨q, hq⟩ := hcells (k, v) (List.mem_cons_self _ _)
    have hkrow : (alook t.rows k).isSome := locGet_row_isSome hq
    simp only [List.map_cons, List.nodup_cons] at hnd
    have hstep : svDictLoop etype c delta ((k, v) :: tl) data
        = svDictLoop etype c delta tl
            (dsSet data etype (locSet t k c (some (if delta then q + v else v)))) := by
      cases delta with
      | true => simp only [svDictLoop, ht, hq, if_true, Option.map_some']
      | false => simp only [svDictLoop, ht, Bool.false_eq_true, if_false]
    have ht1 := alook_dsSet_self data etype
      (locSet t k c (some (if delta then q + v else v))) ht
    have hc1 : c ∈ (locSet t k c (some (if delta then q + v else v))).cols := by
      rw [locSet_cols]; exact hc
    have hcells1 : ∀ kv ∈ tl, ∃ q' : ℚ,
        locGet (locSet t k c (some (if delta then q + v else v))) kv.1 c = some (some q') := by
      intro kv hkv
      obtain ⟨q', hq'⟩ := hcells kv (List.mem_cons_of_mem _ hkv)
      have hne : kv.1 ≠ k := by
        intro he
        exact hnd.1 (he ▸ List.mem_map_of_mem Prod.fst hkv)
      exact ⟨q', by rw [locGet_locSet_ne t k c _ hne hkrow]; exact hq'⟩
    obtain ⟨h1, t', ht', hpres, hmem⟩ :=
      ih (dsSet data etype (locSet t k c (some (if delta then q + v else v))))
        (locSet t k c (some (if delta then q + v else v))) ht1 hc1 hnd.2 hcells1
    rw [hstep]
    refine ⟨h1, t', ht', ?_, ?_⟩
    · intro k' hk'
      simp only [List.map_cons, List.mem_cons] at hk'
      push_neg at hk'
      rw [hpres k' hk'.2, locGet_locSet_ne t k c _ hk'.1 hkrow]
    · intro kv hkv q0 hq0
      rcases List.mem_cons.mp hkv with he | he
      · cases he
        have hq0q : q0 = q := by
          rw [hq] at hq0
          cases hq0
          rfl
        subst hq0q
        have hset := locGet_locSet_self t k c (some (if delta then q0 + v else v)) hq
        rw [hpres k hnd.1, hset]
      · have hne : kv.1 ≠ k := by
          intro he2
          exact hnd.1 (he2 ▸ List.mem_map_of_mem Prod.fst he)
        have hq1 : locGet (locSet t k c (some (if delta then q + v else v))) kv.1 c
            = some (some q0) := by
          rw [locGet_locSet_ne t k c _ hne hkrow]; exact hq0
        exact hmem kv he q0 hq1

theorem svArray_ne_incomplete (t : Table) (c : String) (delta : Bool) (a : List ℚ) :
    (svArray t c delta a).1 ≠ some .incomplete := by
  unfold svArray
  split
  · intro h; cases h
  · split
    · intro h; cases h
    · intro h; cases h

theorem svDictLoop_ids (etype c : String) (delta : Bool) (m : List (ℕ × ℚ)) :
    ∀ data : Dataset, (data.map Prod.fst).Nodup →
      (∀ kv ∈ m, ∀ t, alook data etype = some t → kv.1 ∈ t.rows.map Prod.fst) →
      dsIds (svDictLoop etype c delta m data).2 = dsIds data := by
  induction m with
  | nil => intro data _ _; rfl
  | cons hd tl ih =>
    intro data hnd hpres
    obtain ⟨k, v⟩ := hd
    cases h : alook data etype with
    | none =>
      have hstep : svDictLoop etype c delta ((k, v) :: tl) data = (some .keyError, data) := by
        simp only [svDictLoop, h]
      rw [hstep]
    | some t =>
      have hk : k ∈ t.rows.map Prod.fst := hpres (k, v) (List.mem_cons_self _ _) t h
      have hkrow : (alook t.rows k).isSome := alook_isSome_iff.mpr hk
      have hrec : ∀ val : Option ℚ,
          dsIds (svDictLoop etype c delta tl (dsSet data etype (locSet t k c val))).2
            = dsIds data := by
        intro val
        have hids : (locSet t k c val).rows.map Prod.fst = t.rows.map Prod.fst :=
          locSet_ids_of_present t k c val hkrow
        have hnd2 : ((dsSet data etype (locSet t k c val)).map Prod.fst).Nodup := by
          rw [dsSet_keys]; exact hnd
        have hpres2 : ∀ kv ∈ tl, ∀ t'',
            alook (dsSet data etype (locSet t k c val)) etype = some t'' →
            kv.1 ∈ t''.rows.map Prod.fst := by
          intro kv hkv t'' ht''
          rw [alook_dsSet_self data etype _ h] at ht''
          cases ht''
          rw [hids]
          exact hpres kv (List.mem_cons_of_mem _ hkv) t h
        rw [ih _ hnd2 hpres2]
        exact dsIds_dsSet hnd h hids
      cases delta with
      | true =>
        cases hg : locGet t k c with
        | none =>
          have hstep : svDictLoop etype c true ((k, v) :: tl) data = (some .keyError, data) := by
            simp only [svDictLoop, h, hg, if_true]
          rw [hstep]
        | some cell =>
          have hstep : svDictLoop etype c true ((k, v) :: tl) data
              = svDictLoop etype c true tl
                  (dsSet data etype (locSet t k c (cell.map (· + v)))) := by
            simp only [svDictLoop, h, hg, if_true]
          rw [hstep]
          exact hrec _
      | false =>
        have hstep : svDictLoop etype c false ((k, v) :: tl) data
            = svDictLoop etype c false tl (dsSet data etype (locSet t k c (some v))) := by
          simp only [svDictLoop, h, Bool.false_eq_true, if_false]
        rw [hstep]
        exact hrec _

/-- Claim C10: `set_values` raises the data-incomplete error exactly when the
equipment type or the column is absent; the check precedes any mutation, so
the dataset is then unchanged; on success (shown for an identifier-keyed
mapping with duplicate-free keys, all present with non-NaN cells) it returns
no error and mutates in place: untouched identifiers keep their cells, and
each targeted cell is overwritten with the given value, or incremented by it
when `delta` is set. -/
theorem set_values_contract (data : Dataset) (etype c : String) (values : SvValues)
    (delta : Bool) :
    ((set_values data etype c values delta).1 = some .incomplete
        ↔ alook data etype = none ∨ ∃ t, alook data etype = some t ∧ c ∉ t.cols)
      ∧ ((set_values data etype c values delta).1 = some .incomplete
          → (set_values data etype c values delta).2 = data)
      ∧ (∀ (m : List (ℕ × ℚ)) (t : Table), values = .dict m →
          alook data etype = some t → c ∈ t.cols → (m.map Prod.fst).Nodup →
          (∀ kv ∈ m, ∃ q : ℚ, locGet t kv.1 c = some (some q)) →
          (set_values data etype c values delta).1 = none
            ∧ ∃ t', alook (set_values data etype c values delta).2 etype = some t'
                ∧ (∀ k', k' ∉ m.map Prod.fst → locGet t' k' c = locGet t k' c)
                ∧ (∀ kv ∈ m, ∀ q : ℚ, locGet t kv.1 c = some (some q) →
                    locGet t' kv.1 c = some (some (if delta then q + kv.2 else kv.2)))) := by
  cases h : alook data etype with
  | none =>
    have hrun : set_values data etype c values delta = (some .incomplete, data) := by
      simp only [set_values, h]
    rw [hrun]
    refine ⟨⟨fun _ => Or.inl rfl, fun _ => rfl⟩, fun _ => rfl, ?_⟩
    intro m t _ ht
    cases ht
  | some t =>
    by_cases hc : c ∈ t.cols
    · cases values with
      | dict m =>
        have hrun : set_values data etype c (.dict m) delta = svDictLoop etype c delta m data := by
          simp only [set_values, h, hc, if_true]
        rw [hrun]
        refine ⟨⟨fun habs => absurd habs (svDictLoop_ne_incomplete etype c delta m data), ?_⟩,
          fun habs => absurd habs (svDictLoop_ne_incomplete etype c delta m data), ?_⟩
        · rintro (hnone | ⟨t', ht', hnc⟩)
          · cases hnone
          · cases ht'
            exact absurd hc hnc
        · intro m' t' hm' ht' hc' hnd hcells
          cases hm'
          cases ht'
          exact svDictLoop_spec etype c delta _ data _ h hc' hnd hcells
      | array a =>
        have hrun : set_values data etype c (.array a) delta
            = ((svArray t c delta a).1, dsSet data etype (svArray t c delta a).2) := by
          simp only [set_values, h, hc, if_true]
        rw [hrun]
        refine ⟨⟨fun habs => absurd habs (svArray_ne_incomplete t c delta a), ?_⟩,
          fun habs => absurd habs (svArray_ne_incomplete t c delta a), ?_⟩
        · rintro (hnone | ⟨t', ht', hnc⟩)
          · cases hnone
          · cases ht'
            exact absurd hc hnc
        · intro m' t' hm'
          cases hm'
    · have hrun : set_values data etype c values delta = (some .incomplete, data) := by
        simp only [set_values, h, hc, if_false]
      rw [hrun]
      refine ⟨⟨fun _ => Or.inr ⟨t, rfl, hc⟩, fun _ => rfl⟩, fun _ => rfl, ?_⟩
      intro m t' _ ht' hc'
      cases ht'
      exact absurd hc' hc

/-- Witness for C10: a two-row table, overwriting both cells through an
identifier-keyed mapping. -/
theorem set_values_contract_witness :
    ("p0" ∈ (⟨["p0"], [(1, [some 5]), (2, [some 3])]⟩ : Table).cols)
    ∧ ((set_values dsW2 "load" "p0" (.dict [(1, 7), (2, 9)]) false).1 = none
        ∧ ∃ t', alook (set_values dsW2 "load" "p0" (.dict [(1, 7), (2, 9)]) false).2 "load"
              = some t'
            ∧ (∀ k', k' ∉ ([((1 : ℕ), (7 : ℚ)), (2, 9)].map Prod.fst) →
                locGet t' k' "p0"
                  = locGet ⟨["p0"], [(1, [some 5]), (2, [some 3])]⟩ k' "p0")
            ∧ ∀ kv ∈ [((1 : ℕ), (7 : ℚ)), (2, 9)], ∀ q : ℚ,
                locGet ⟨["p0"], [(1, [some 5]), (2, [some 3])]⟩ kv.1 "p0" = some (some q) →
                locGet t' kv.1 "p0" = some (some (if false then q + kv.2 else kv.2))) :=
  ⟨by decide,
    (set_values_contract dsW2 "load" "p0" (.dict [(1, 7), (2, 9)]) false).2.2
      [(1, 7), (2, 9)] ⟨["p0"], [(1, [some 5]), (2, [some 3])]⟩ rfl (by decide) (by decide)
      (by decide)
      (by
        intro kv hkv
        fin_cases hkv
        · exact ⟨5, by decide⟩
        · exact ⟨3, by decide⟩)⟩

/-- Claim C9, amended: the field editor and the generator opener preserve
the row-identifier sets whenever every targeted identifier exists — for an
identifier-keyed mapping whose keys are all present, for any positional
array, and for `full_open_generators` with any identifier list (a missing
identifier raises before mutating). -/
theorem engine_preserves_row_identifiers :
    (∀ (data : Dataset) (etype c : String) (m : List (ℕ × ℚ)) (delta : Bool),
        (data.map Prod.fst).Nodup →
        (∀ kv ∈ m, ∀ t, alook data etype = some t → kv.1 ∈ t.rows.map Prod.fst) →
        dsIds (set_values data etype c (.dict m) delta).2 = dsIds data)
      ∧ (∀ (data : Dataset) (etype c : String) (a : List ℚ) (delta : Bool),
          (data.map Prod.fst).Nodup →
          dsIds (set_values data etype c (.array a) delta).2 = dsIds data)
      ∧ ∀ (gens : GenTable) (indices : List ℕ) (v0 : Option ℚ),
          (full_open_generators gens indices v0).2.map Prod.fst = gens.map Prod.fst := by
  refine ⟨?_, ?_, ?_⟩
  · intro data etype c m delta hnd hpres
    cases h : alook data etype with
    | none =>
      have hrun : set_values data etype c (.dict m) delta = (some .incomplete, data) := by
        simp only [set_values, h]
      rw [hrun]
    | some t =>
      by_cases hc : c ∈ t.cols
      · have hrun : set_values data etype c (.dict m) delta
            = svDictLoop etype c delta m data := by
          simp only [set_values, h, hc, if_true]
        rw [hrun]
        exact svDictLoop_ids etype c delta m data hnd hpres
      · have hrun : set_values data etype c (.dict m) delta = (some .incomplete, data) := by
          simp only [set_values, h, hc, if_false]
        rw [hrun]
  · intro data etype c a delta hnd
    cases h : alook data etype with
    | none =>
      have hrun : set_values data etype c (.array a) delta = (some .incomplete, data) := by
        simp only [set_values, h]
      rw [hrun]
    | some t =>
      by_cases hc : c ∈ t.cols
      · have hrun : set_values data etype c (.array a) delta
            = ((svArray t c delta a).1, dsSet data etype (svArray t c delta a).2) := by
          simp only [set_values, h, hc, if_true]
        rw [hrun]
        have hids : (svArray t c delta a).2.rows.map Prod.fst = t.rows.map Prod.fst := by
          unfold svArray
          split
          · rfl
          · split
            · next hlen =>
              simp only [List.map_map, Function.comp_def]
              have : (t.rows.zip a).map (fun q => q.1.1)
                  = ((t.rows.zip a).map Prod.fst).map Prod.fst := by
                rw [List.map_map]; rfl
              rw [this, List.map_fst_zip]
              omega
            · rfl
        exact dsIds_dsSet hnd h hids
      · have hrun : set_values data etype c (.array a) delta = (some .incomplete, data) := by
          simp only [set_values, h, hc, if_false]
        rw [hrun]
  · intro gens indices v0
    unfold full_open_generators
    split
    · rw [List.map_map]
      rfl
    · rfl

/-- Counterexample to C9 as stated: `set_values` with a mapping keyed by an
identifier absent from the table performs pandas setting-with-enlargement
and creates that row. -/
theorem set_values_enlargement_counterexample :
    dsIds (set_values dsW "load" "p0" (.dict [(2, 7)]) false).2 = [("load", [1, 2])]
      ∧ dsIds dsW = [("load", [1])]
      ∧ ([("load", [(1 : ℕ), 2])] ≠ [("load", [1])]) :=
  ⟨by decide, by decide, by decide⟩

/-- Witness for C9: overwriting an existing cell and fully opening a listed
generator leave every identifier set unchanged. -/
theorem engine_preserves_row_identifiers_witness :
    ((dsW.map Prod.fst).Nodup
      ∧ dsIds (set_values dsW "load" "p0" (.dict [(1, 7)]) false).2 = dsIds dsW)
    ∧ (full_open_generators gensW [1] (some 1)).2.map Prod.fst = gensW.map Prod.fst :=
  ⟨⟨by decide,
      engine_preserves_row_identifiers.1 dsW "load" "p0" [(1, 7)] false (by decide)
        (by decide)⟩,
    engine_preserves_row_identifiers.2.2 gensW [1] (some 1)⟩

theorem filter_eq_self_of {α : Type} {p : α → Bool} {l : List α}
    (h : ∀ x ∈ l, p x = true) : l.filter p = l := by
  induction l with
  | nil => rfl
  | cons hd tl ih =>
    rw [List.filter_cons, if_pos (h hd (List.mem_cons_self hd tl)),
      ih fun x hx => h x (List.mem_cons_of_mem hd hx)]

theorem adjB_symm {es : List Edge} {u v : ℕ} (h : adjB es u v = true) : adjB es v u = true := by
  unfold adjB at h ⊢
  rw [List.any_eq_true] at h ⊢
  obtain ⟨e, he, hp⟩ := h
  refine ⟨e, he, ?_⟩
  rw [decide_eq_true_iff] at hp ⊢
  tauto

theorem mem_vertsOf {es : List Edge} {x : ℕ} :
    x ∈ vertsOf es ↔ ∃ e ∈ es, e.1 = x ∨ e.2.1 = x := by
  induction es with
  | nil => simp [vertsOf]
  | cons hd tl ih =>
    unfold vertsOf at ih ⊢
    simp only [List.foldr_cons, List.mem_cons, ih]
    constructor
    · rintro (h | h | ⟨e, he, hp⟩)
      · exact ⟨hd, Or.inl rfl, Or.inl h.symm⟩
      · exact ⟨hd, Or.inl rfl, Or.inr h.symm⟩
      · exact ⟨e, Or.inr he, hp⟩
    · rintro ⟨e, he | he, hp⟩
      · subst he
        rcases hp with hp | hp
        · exact Or.inl hp.symm
        · exact Or.inr (Or.inl hp.symm)
      · exact Or.inr (Or.inr ⟨e, he, hp⟩)

theorem mem_vertsOf_of_adjB {es : List Edge} {u v : ℕ} (h : adjB es u v = true) :
    v ∈ vertsOf es := by
  unfold adjB at h
  rw [List.any_eq_true] at h
  obtain ⟨e, he, hp⟩ := h
  rw [decide_eq_true_iff] at hp
  rcases hp with ⟨_, h2⟩ | ⟨h1, _⟩
  · exact mem_vertsOf.mpr ⟨e, he, Or.inr h2⟩
  · exact mem_vertsOf.mpr ⟨e, he, Or.inl h1⟩

theorem length_vertsOf (es : List Edge) : (vertsOf es).length = 2 * es.length := by
  induction es with
  | nil => rfl
  | cons hd tl ih =>
    unfold vertsOf at ih ⊢
    simp only [List.foldr_cons, List.length_cons, ih]
    ring

theorem mem_grow {es : List Edge} {s : List ℕ} {x : ℕ} :
    x ∈ grow es s ↔ x ∈ s ∨ (x ∈ vertsOf es ∧ ∃ u ∈ s, adjB es u x = true) := by
  unfold grow
  simp [List.mem_append, List.mem_filter, List.any_eq_true]

theorem mem_grow_of_mem {es : List Edge} {s : List ℕ} {x : ℕ} (h : x ∈ s) : x ∈ grow es s :=
  mem_grow.mpr (Or.inl h)

theorem growTo_succ_out (es : List Edge) : ∀ (k : ℕ) (s : List ℕ),
    growTo es (k + 1) s = grow es (growTo es k s) := by
  intro k
  induction k with
  | zero => intro s; rfl
  | succ k ih =>
    intro s
    show growTo es (k + 1) (grow es s) = _
    rw [ih (grow es s)]
    rfl

theorem mem_growTo_mono {es : List Edge} {s : List ℕ} {x : ℕ} :
    ∀ {k m : ℕ}, k ≤ m → x ∈ growTo es k s → x ∈ growTo es m s := by
  intro k m hkm hx
  induction m with
  | zero =>
    have : k = 0 := Nat.le_zero.mp hkm
    subst this
    exact hx
  | succ m ih =>
    rcases Nat.lt_or_ge k (m + 1) with h | h
    · have := ih (Nat.lt_succ_iff.mp h)
      rw [growTo_succ_out]
      exact mem_grow_of_mem this
    · have : k = m + 1 := Nat.le_antisymm hkm h
      subst this
      exact hx

theorem growTo_sound (es : List Edge) (a : ℕ) : ∀ (k : ℕ) (s : List ℕ),
    (∀ x ∈ s, Relation.ReflTransGen (fun u v => adjB es u v = true) a x) →
    ∀ b ∈ growTo es k s, Relation.ReflTransGen (fun u v => adjB es u v = true) a b := by
  intro k
  induction k with
  | zero => intro s hs b hb; exact hs b hb
  | succ k ih =>
    intro s hs b hb
    refine ih (grow es s) ?_ b hb
    intro x hx
    rcases mem_grow.mp hx with h | ⟨_, u, hu, hadj⟩
    · exact hs x h
    · exact Relation.ReflTransGen.tail (hs u hu) hadj

theorem growTo_subset_verts (es : List Edge) (a : ℕ) : ∀ (k : ℕ) (x : ℕ),
    x ∈ growTo es k [a] → x ∈ a :: vertsOf es := by
  intro k
  induction k with
  | zero =>
    intro x hx
    have hxa : x = a := List.mem_singleton.mp hx
    subst hxa
    exact List.mem_cons_self _ _
  | succ k ih =>
    intro x hx
    rw [growTo_succ_out] at hx
    rcases mem_grow.mp hx with h | ⟨hv, _⟩
    · exact ih x h
    · exact List.mem_cons_of_mem _ hv

theorem grow_congr {es : List Edge} {s t : List ℕ} (h : ∀ x, x ∈ s ↔ x ∈ t) (x : ℕ) :
    x ∈ grow es s ↔ x ∈ grow es t := by
  rw [mem_grow, mem_grow]
  constructor
  · rintro (hx | ⟨hv, u, hu, hadj⟩)
    · exact Or.inl ((h x).mp hx)
    · exact Or.inr ⟨hv, u, (h u).mp hu, hadj⟩
  · rintro (hx | ⟨hv, u, hu, hadj⟩)
    · exact Or.inl ((h x).mpr hx)
    · exact Or.inr ⟨hv, u, (h u).mpr hu, hadj⟩

theorem growTo_congr {es : List Edge} : ∀ (k : ℕ) {s t : List ℕ},
    (∀ x, x ∈ s ↔ x ∈ t) → ∀ x, (x ∈ growTo es k s ↔ x ∈ growTo es k t) := by
  intro k
  induction k with
  | zero => intro s t h x; exact h x
  | succ k ih =>
    intro s t h x
    show x ∈ growTo es k (grow es s) ↔ x ∈ growTo es k (grow es t)
    exact ih (grow_congr h) x

theorem growTo_stab {es : List Edge} {s : List ℕ}
    (hstab : ∀ x, x ∈ grow es s ↔ x ∈ s) : ∀ (k : ℕ) (x : ℕ), x ∈ growTo es k s ↔ x ∈ s := by
  intro k
  induction k with
  | zero => intro x; exact Iff.rfl
  | succ k ih =>
    intro x
    show x ∈ growTo es k (grow es s) ↔ _
    rw [growTo_congr k hstab x]
    exact ih x

theorem stab_closed {es : List Edge} {s : List ℕ} {a b : ℕ}
    (hstab : ∀ x, x ∈ grow es s ↔ x ∈ s) (ha : a ∈ s)
    (hab : Relation.ReflTransGen (fun u v => adjB es u v = true) a b) : b ∈ s := by
  induction hab with
  | refl => exact ha
  | tail _ hadj ih =>
    exact (hstab _).mp (mem_grow.mpr (Or.inr ⟨mem_vertsOf_of_adjB hadj, _, ih, hadj⟩))

theorem exists_stab (es : List Edge) (a : ℕ) :
    ∃ k < 2 * es.length + 1, ∀ x, x ∈ growTo es (k + 1) [a] ↔ x ∈ growTo es k [a] := by
  by_contra hcon
  push_neg at hcon
  have hstrict : ∀ k, k < 2 * es.length + 1 →
      (growTo es k [a]).toFinset ⊂ (growTo es (k + 1) [a]).toFinset := by
    intro k hk
    obtain ⟨x, hx⟩ := hcon k hk
    rw [Finset.ssubset_iff_subset_ne]
    constructor
    · intro y hy
      rw [List.mem_toFinset] at hy ⊢
      exact mem_growTo_mono (Nat.le_succ k) hy
    · intro he
      rcases hx with ⟨hin, hout⟩ | ⟨hout, hin⟩
      · apply hout
        rw [← List.mem_toFinset, ← he, List.mem_toFinset] at hin
        exact hin
      · exact hout (mem_growTo_mono (Nat.le_succ k) hin)
  have hcard : ∀ k, k ≤ 2 * es.length + 1 → k + 1 ≤ (growTo es k [a]).toFinset.card := by
    intro k
    induction k with
    | zero =>
      intro _
      have : a ∈ (growTo es 0 [a]).toFinset := by
        rw [List.mem_toFinset]
        exact List.mem_cons_self _ _
      exact Finset.card_pos.mpr ⟨a, this⟩
    | succ k ih =>
      intro hk
      have h1 := ih (Nat.le_of_succ_le hk)
      have h2 := Finset.card_lt_card (hstrict k (Nat.lt_of_succ_le hk))
      omega
  have hbound : (growTo es (2 * es.length + 1) [a]).toFinset.card
      ≤ (a :: vertsOf es).toFinset.card := by
    apply Finset.card_le_card
    intro x hx
    rw [List.mem_toFinset] at hx ⊢
    exact growTo_subset_verts es a _ x hx
  have hlen : (a :: vertsOf es).toFinset.card ≤ 2 * es.length + 1 := by
    calc (a :: vertsOf es).toFinset.card ≤ (a :: vertsOf es).length :=
          List.toFinset_card_le _
      _ = 2 * es.length + 1 := by rw [List.length_cons, length_vertsOf]
  have := hcard (2 * es.length + 1) (le_refl _)
  omega

theorem connB_iff (es : List Edge) (a b : ℕ) :
    connB es a b = true ↔ Relation.ReflTransGen (fun u v => adjB es u v = true) a b := by
  unfold connB reachL
  rw [decide_eq_true_iff]
  constructor
  · intro hb
    refine growTo_sound es a _ [a] ?_ b hb
    intro x hx
    have hxa : x = a := List.mem_singleton.mp hx
    subst hxa
    exact Relation.ReflTransGen.refl
  · intro hab
    obtain ⟨k, hk, hstab⟩ := exists_stab es a
    have hstab' : ∀ x, x ∈ grow es (growTo es k [a]) ↔ x ∈ growTo es k [a] := by
      intro x
      rw [← growTo_succ_out]
      exact hstab x
    have hb : b ∈ growTo es k [a] := by
      refine stab_closed hstab' ?_ hab
      exact mem_growTo_mono (Nat.zero_le k) (List.mem_cons_self a [])
    exact mem_growTo_mono (Nat.le_of_lt hk) hb

theorem rtg_adjB_symm {es : List Edge} {a b : ℕ}
    (h : Relation.ReflTransGen (fun u v => adjB es u v = true) a b) :
    Relation.ReflTransGen (fun u v => adjB es u v = true) b a := by
  induction h with
  | refl => exact Relation.ReflTransGen.refl
  | tail _ hadj ih => exact Relation.ReflTransGen.head (adjB_symm hadj) ih

theorem connB_symm {es : List Edge} {a b : ℕ} (h : connB es a b = true) :
    connB es b a = true :=
  (connB_iff es b a).mpr (rtg_adjB_symm ((connB_iff es a b).mp h))

theorem connB_removeEdge_preserve (es : List Edge) (e : Edge) {x y : ℕ}
    (h2 : connB (removeEdge es e) e.1 e.2.1 = true)
    (h1 : connB es x y = true) : connB (removeEdge es e) x y = true := by
  rw [connB_iff] at h1 h2 ⊢
  induction h1 with
  | refl => exact Relation.ReflTransGen.refl
  | tail _ hadj ih =>
    rename_i c b _
    unfold adjB at hadj
    rw [List.any_eq_true] at hadj
    obtain ⟨f, hf, hp⟩ := hadj
    rw [decide_eq_true_iff] at hp
    rcases Classical.em (f ∈ removeEdge es e) with hmem | hmem
    · refine Relation.ReflTransGen.tail ih ?_
      unfold adjB
      rw [List.any_eq_true]
      exact ⟨f, hmem, by rw [decide_eq_true_iff]; exact hp⟩
    · have hsame : f.2.2 = e.2.2
          ∧ ((f.1 = e.1 ∧ f.2.1 = e.2.1) ∨ (f.1 = e.2.1 ∧ f.2.1 = e.1)) := by
        by_contra hns
        apply hmem
        unfold removeEdge
        rw [List.mem_filter]
        exact ⟨hf, by rw [decide_eq_true_iff]; exact hns⟩
      have hcb : Relation.ReflTransGen
          (fun u v => adjB (removeEdge es e) u v = true) c b := by
        rcases hp with ⟨hc, hb⟩ | ⟨hc, hb⟩ <;> rcases hsame.2 with ⟨h1', h2'⟩ | ⟨h1', h2'⟩ <;>
          rw [← hc, ← hb] <;> rw [h1', h2'] <;>
          first
            | exact h2
            | exact rtg_adjB_symm h2
      exact Relation.ReflTransGen.trans ih hcb

theorem map_fst_setMark0 (acl : AclTable) (idx : ℕ) :
    (setMark0 acl idx).map Prod.fst = acl.map Prod.fst := by
  unfold setMark0
  rw [List.map_map]
  rfl

theorem alook_setMark0 (acl : AclTable) (idx j : ℕ) :
    alook (setMark0 acl idx) j
      = (alook acl j).map fun a => if j = idx then { a with mark := 0 } else a := by
  have h := alook_map (fun i (a : Acline) => if i = idx then { a with mark := 0 } else a) acl j
  exact h

theorem adjB_congr {es es' : List Edge} (h : ∀ f, f ∈ es ↔ f ∈ es') (u v : ℕ) :
    adjB es u v = adjB es' u v := by
  unfold adjB
  rw [Bool.eq_iff_iff, List.any_eq_true, List.any_eq_true]
  constructor
  · rintro ⟨e, he, hp⟩
    exact ⟨e, (h e).mp he, hp⟩
  · rintro ⟨e, he, hp⟩
    exact ⟨e, (h e).mpr he, hp⟩

theorem connB_congr {es es' : List Edge} (h : ∀ f, f ∈ es ↔ f ∈ es') (a b : ℕ) :
    connB es a b = connB es' a b := by
  rw [Bool.eq_iff_iff, connB_iff, connB_iff]
  have hadj : (fun u v => adjB es u v = true) = fun u v => adjB es' u v = true := by
    funext u v
    rw [adjB_congr h]
  rw [hadj]

theorem mem_removeEdge {es : List Edge} {e f : Edge} :
    f ∈ removeEdge es e
      ↔ f ∈ es ∧ ¬ (f.2.2 = e.2.2
          ∧ ((f.1 = e.1 ∧ f.2.1 = e.2.1) ∨ (f.1 = e.2.1 ∧ f.2.1 = e.1))) := by
  unfold removeEdge
  rw [List.mem_filter, decide_eq_true_iff]

theorem mem_build {p : Power} {f : Edge} :
    f ∈ PowerGraph.build p
      ↔ (∃ q ∈ p.acline, q.2.mark = 1 ∧ (q.2.ibus, q.2.jbus, Sum.inl q.1) = f)
        ∨ (∃ q ∈ p.transformer, q.2.mark = 1 ∧ (q.2.ibus, q.2.jbus, Sum.inr q.1) = f) := by
  unfold PowerGraph.build
  simp only [List.mem_append, List.mem_map, List.mem_filter, decide_eq_true_iff]
  constructor
  · rintro (⟨q, ⟨hq, hm⟩, he⟩ | ⟨q, ⟨hq, hm⟩, he⟩)
    · exact Or.inl ⟨q, hq, hm, he⟩
    · exact Or.inr ⟨q, hq, hm, he⟩
  · rintro (⟨q, hq, hm, he⟩ | ⟨q, hq, hm, he⟩)
    · exact Or.inl ⟨q, ⟨hq, hm⟩, he⟩
    · exact Or.inr ⟨q, ⟨hq, hm⟩, he⟩

/-- Opening the acline `idx` in the table corresponds exactly to removing
its keyed edge from the in-service multigraph. -/
theorem mem_build_setMark0 {acl trans : AclTable} {idx : ℕ} {a : Acline}
    (hnd : (acl.map Prod.fst).Nodup) (hl : alook acl idx = some a) (f : Edge) :
    f ∈ PowerGraph.build ⟨setMark0 acl idx, trans⟩
      ↔ f ∈ removeEdge (PowerGraph.build ⟨acl, trans⟩) (a.ibus, a.jbus, Sum.inl idx) := by
  rw [mem_removeEdge, mem_build, mem_build]
  unfold setMark0
  simp only [List.mem_map]
  constructor
  · rintro (⟨q, ⟨p, hp, hpq⟩, hm, he⟩ | ⟨q, hq, hm, he⟩)
    · subst hpq
      by_cases hpi : p.1 = idx
      · rw [if_pos hpi] at hm he
        cases hm
      · rw [if_neg hpi] at hm he
        refine ⟨Or.inl ⟨p, hp, hm, he⟩, ?_⟩
        rintro ⟨hk, -⟩
        rw [← he] at hk
        exact hpi (Sum.inl.inj hk)
    · refine ⟨Or.inr ⟨q, hq, hm, he⟩, ?_⟩
      rintro ⟨hk, -⟩
      rw [← he] at hk
      cases hk
  · rintro ⟨⟨p, hp, hm, he⟩ | ⟨q, hq, hm, he⟩, hns⟩
    · have hpi : p.1 ≠ idx := by
        intro hpi
        have hrow : alook acl p.1 = some p.2 := alook_of_mem hnd hp
        rw [hpi, hl] at hrow
        have hpa : p.2 = a := by cases hrow; rfl
        apply hns
        rw [← he, hpa, hpi]
        exact ⟨rfl, Or.inl ⟨rfl, rfl⟩⟩
      exact Or.inl ⟨(p.1, p.2), ⟨p, hp, by rw [if_neg hpi]⟩, hm, he⟩
    · exact Or.inr ⟨q, hq, hm, he⟩

theorem getD_mem_of_lt : ∀ (l : List ℕ) (n : ℕ) (d : ℕ), n < l.length → l.getD n d ∈ l := by
  intro l
  induction l with
  | nil => intro n d h; cases h
  | cons hd tl ih =>
    intro n d h
    cases n with
    | zero => exact List.mem_cons_self _ _
    | succ n' => exact List.mem_cons_of_mem _ (ih n' d (Nat.lt_of_succ_lt_succ h))

/-- The connectivity invariant of the `keep_link` loop: starting from a graph
that holds exactly the in-service branches, every identifier in a normal
return's list keeps its terminal buses connected in the multigraph of the
branches still in service at the end. -/
theorem roaLoop_keepLink_invariant (trans : AclTable) : ∀ (fuel : ℕ)
    (acl : AclTable) (g : List Edge) (inds : List ℕ) (num : ℕ)
    (picks ret retF : List ℕ) (acl' : AclTable) (g' : List Edge),
    (acl.map Prod.fst).Nodup →
    (∀ f, f ∈ g ↔ f ∈ PowerGraph.build ⟨acl, trans⟩) →
    (∀ j ∈ inds, ∃ a, alook acl j = some a ∧ a.mark = 1) →
    (∀ r ∈ ret, ∀ a, alook acl r = some a → connB g a.ibus a.jbus = true) →
    roaLoop true fuel acl g inds num picks ret = (.ok retF, acl', g') →
    ∀ r ∈ retF, ∀ a, alook acl' r = some a →
      connB (PowerGraph.build ⟨acl', trans⟩) a.ibus a.jbus = true := by
  intro fuel
  induction fuel with
  | zero =>
    intro acl g inds num picks ret retF acl' g' hnd hg hinds hret hrun
    by_cases hnum : num = 0
    · simp only [roaLoop, if_pos hnum, Prod.mk.injEq, RoaOut.ok.injEq] at hrun
      obtain ⟨h1, h2, h3⟩ := hrun
      subst h1 h2 h3
      intro r hr a hl
      rw [← connB_congr hg]
      exact hret r (List.mem_reverse.mp hr) a hl
    · by_cases hlen : inds.length < num
      · simp only [roaLoop, if_neg hnum, if_pos hlen, Prod.mk.injEq] at hrun
        exact absurd hrun.1 (by intro h; cases h)
      · simp only [roaLoop, if_neg hnum, if_neg hlen, Prod.mk.injEq] at hrun
        exact absurd hrun.1 (by intro h; cases h)
  | succ fuel ih =>
    intro acl g inds num picks ret retF acl' g' hnd hg hinds hret hrun
    by_cases hnum : num = 0
    · simp only [roaLoop, if_pos hnum, Prod.mk.injEq, RoaOut.ok.injEq] at hrun
      obtain ⟨h1, h2, h3⟩ := hrun
      subst h1 h2 h3
      intro r hr a hl
      rw [← connB_congr hg]
      exact hret r (List.mem_reverse.mp hr) a hl
    · by_cases hlen : inds.length < num
      · simp only [roaLoop, if_neg hnum, if_pos hlen, Prod.mk.injEq] at hrun
        exact absurd hrun.1 (by intro h; cases h)
      · simp only [roaLoop, if_neg hnum, if_neg hlen, Bool.true_and] at hrun
        have hpos : 0 < inds.length := by
          rcases Nat.eq_zero_or_pos inds.length with h0 | h0
          · rw [h0] at hlen
            exact absurd (Nat.pos_of_ne_zero hnum) (by omega)
          · exact h0
        set idx := inds.getD (picks.headD 0 % inds.length) 0 with hidxdef
        have hidxmem : idx ∈ inds :=
          getD_mem_of_lt inds _ 0 (Nat.mod_lt _ hpos)
        obtain ⟨aR, haR, hmark⟩ := hinds idx hidxmem
        rw [haR] at hrun
        simp only [Option.getD_some] at hrun
        have hinds2 : ∀ j ∈ inds.filter (fun j => j ≠ idx), ∃ a,
            alook (setMark0 acl idx) j = some a ∧ a.mark = 1 := by
          intro j hj
          rw [List.mem_filter, decide_eq_true_iff] at hj
          obtain ⟨aj, haj, hmj⟩ := hinds j hj.1
          refine ⟨aj, ?_, hmj⟩
          rw [alook_setMark0, haj, Option.map_some', if_neg hj.2]
        cases hB : PowerGraph.is_connected g aR.ibus aR.jbus [(aR.ibus, aR.jbus, Sum.inl idx)] with
        | true =>
          rw [hB, if_pos rfl] at hrun
          exact ih acl g _ num picks.tail ret retF acl' g' hnd hg
            (fun j hj => hinds j (List.mem_of_mem_filter hj)) hret hrun
        | false =>
          rw [hB] at hrun
          simp only [Bool.false_eq_true, if_false] at hrun
          have hconnNew : connB (removeEdge g (aR.ibus, aR.jbus, Sum.inl idx))
              aR.ibus aR.jbus = true := by
            unfold PowerGraph.is_connected at hB
            simp only [List.foldl_cons, List.foldl_nil] at hB
            rwa [Bool.not_eq_false'] at hB
          have hg2 : ∀ f, f ∈ removeEdge g (aR.ibus, aR.jbus, Sum.inl idx)
              ↔ f ∈ PowerGraph.build ⟨setMark0 acl idx, trans⟩ := by
            intro f
            rw [mem_build_setMark0 hnd haR f, mem_removeEdge, mem_removeEdge, hg f]
          have hnd2 : ((setMark0 acl idx).map Prod.fst).Nodup := by
            rw [map_fst_setMark0]
            exact hnd
          have hret2 : ∀ r ∈ idx :: ret, ∀ a, alook (setMark0 acl idx) r = some a →
              connB (removeEdge g (aR.ibus, aR.jbus, Sum.inl idx)) a.ibus a.jbus = true := by
            intro r hr a hl
            rw [alook_setMark0] at hl
            cases h0 : alook acl r with
            | none => rw [h0] at hl; cases hl
            | some a0 =>
              rw [h0, Option.map_some'] at hl
              have hfields : a.ibus = a0.ibus ∧ a.jbus = a0.jbus := by
                by_cases hri : r = idx
                · rw [if_pos hri] at hl
                  cases hl
                  exact ⟨rfl, rfl⟩
                · rw [if_neg hri] at hl
                  cases hl
                  exact ⟨rfl, rfl⟩
              rcases List.mem_cons.mp hr with hre | hre
              · subst hre
                rw [haR] at h0
                have ha0 : a0 = aR := by cases h0; rfl
                rw [hfields.1, hfields.2, ha0]
                exact hconnNew
              · rw [hfields.1, hfields.2]
                exact connB_removeEdge_preserve g (aR.ibus, aR.jbus, Sum.inl idx)
                  hconnNew (hret r hre a0 h0)
          exact ih (setMark0 acl idx) (removeEdge g (aR.ibus, aR.jbus, Sum.inl idx))
            _ (num - 1) picks.tail (idx :: ret) retF acl' g' hnd2 hg2 hinds2 hret2 hrun

/-- Claim C1: when `random_open_acline` is called with `keep_link` and
returns normally, every identifier in the returned list still has its two
terminal buses connected in the multigraph of the branches that remain in
service after the call (the opened branches excluded). -/
theorem random_open_acline_keepLink_connectivity (p : Power) (num : ℕ) (picks : List ℕ)
    (retF : List ℕ) (acl' : AclTable) (g' : List Edge)
    (hnd : (p.acline.map Prod.fst).Nodup)
    (hrun : random_open_acline p num true picks = (.ok retF, acl', g')) :
    ∀ r ∈ retF, ∀ a, alook acl' r = some a →
      connB (PowerGraph.build ⟨acl', p.transformer⟩) a.ibus a.jbus = true := by
  unfold random_open_acline at hrun
  rw [if_pos rfl] at hrun
  refine roaLoop_keepLink_invariant p.transformer (roaCandidates p).length p.acline
    (PowerGraph.build p) (roaCandidates p) num picks [] retF acl' g' hnd
    (fun f => Iff.rfl) ?_ (fun r hr => absurd hr (List.not_mem_nil r)) hrun
  intro j hj
  unfold roaCandidates at hj
  obtain ⟨q, hq, hq1⟩ := List.mem_map.mp hj
  rw [List.mem_filter, decide_eq_true_iff] at hq
  refine ⟨q.2, ?_, hq.2.1⟩
  rw [← hq1]
  exact alook_of_mem hnd hq.1

/-- Witness for C1: two parallel lines between buses 1 and 2; opening
line 1 keeps buses 1 and 2 connected through line 2. -/
theorem random_open_acline_keepLink_connectivity_witness :
    ((powParallel.acline.map Prod.fst).Nodup
      ∧ random_open_acline powParallel 1 true [0]
          = (.ok [1], [(1, ⟨0, 1, 2⟩), (2, ⟨1, 1, 2⟩)], [(1, 2, Sum.inl 2)]))
    ∧ ∀ r ∈ [1], ∀ a : Acline,
        alook [(1, (⟨0, 1, 2⟩ : Acline)), (2, ⟨1, 1, 2⟩)] r = some a →
        connB (PowerGraph.build ⟨[(1, ⟨0, 1, 2⟩), (2, ⟨1, 1, 2⟩)], []⟩) a.ibus a.jbus
          = true :=
  ⟨⟨by decide, by decide⟩,
    random_open_acline_keepLink_connectivity powParallel 1 [0] [1]
      [(1, ⟨0, 1, 2⟩), (2, ⟨1, 1, 2⟩)] [(1, 2, Sum.inl 2)] (by decide) (by decide)⟩

/-- Claim C6, amended: if the candidate pool is already smaller than the
requested count when the call starts, `random_open_acline` raises at once
and the acline table is unchanged.  (With `keep_link`, a raise can also
happen after connectivity rejections shrank the pool mid-run; branches
accepted before that point stay opened — see the counterexample.) -/
theorem random_open_acline_insufficient_initial (p : Power) (num : ℕ) (keepLink : Bool)
    (picks : List ℕ) (h1 : num ≠ 0) (h2 : (roaCandidates p).length < num) :
    (random_open_acline p num keepLink picks).1 = .errInsufficient
      ∧ (random_open_acline p num keepLink picks).2.1 = p.acline := by
  unfold random_open_acline roaLoop
  rw [if_neg h1, if_pos h2]
  exact ⟨rfl, rfl⟩

/-- Witness for the amended C6: requesting 3 branches from a 2-candidate
pool raises immediately, leaving the table intact. -/
theorem random_open_acline_insufficient_initial_witness :
    ((3 : ℕ) ≠ 0 ∧ (roaCandidates powParallel).length < 3)
    ∧ ((random_open_acline powParallel 3 true [0]).1 = .errInsufficient
        ∧ (random_open_acline powParallel 3 true [0]).2.1 = powParallel.acline) :=
  ⟨⟨by decide, by decide⟩,
    random_open_acline_insufficient_initial powParallel 3 true [0] (by decide) (by decide)⟩

/-- Counterexample to C6 as stated: lines a=(1,2), b=(3,4), c=(3,4) with
`num = 2` and picks b, a, c.  Branch b is accepted and opened (`mark = 0`);
then a and c are both rejected by the connectivity test, the pool empties
with one branch still owed, and the call raises — after having mutated the
table. -/
theorem random_open_acline_partial_open_counterexample :
    (random_open_acline powC6 2 true [1, 0, 0]).1 = .errInsufficient
      ∧ alook (random_open_acline powC6 2 true [1, 0, 0]).2.1 2 = some ⟨0, 3, 4⟩
      ∧ powC6.acline ≠ (random_open_acline powC6 2 true [1, 0, 0]).2.1 :=
  ⟨by decide, by decide, by decide⟩

end PowerAI

